import Mathlib

/-!
Verification development for `fetch_payslips.py`: a polling scheduler plus an
IMAP mailbox processor that stages encrypted PDF attachments, decrypts them
through an external tool, writes the plaintext into a sink directory, and marks
processed messages with a Gmail label.

The first half embeds the scheduler (`next_tuesday_at_10`, `next_valid_wakeup`,
and the window predicate of the main loop).  The second half embeds
`process_mailbox` over an explicit mailbox / filesystem state with the two
external collaborators (the IMAP server and the `qpdf` decryptor) modelled as
deterministic oracles.
-/

/-! ## Time model

A timestamp is a pair of a day index and a second-of-day.  Day `0` is taken to
be a Monday, so `day % 7` coincides with Python's `datetime.weekday()`
convention (`Mon = 0`, ..., `Sun = 6`).  Seconds-of-day run from `0` to
`86399`. -/

structure DT where
  day : Nat
  tod : Nat
deriving DecidableEq, Repr

/-- `WINDOW_START = dtime(10, 0)`, as a second-of-day. -/
def WINDOW_START : Nat := 10 * 3600

/-- `WINDOW_END = dtime(23, 59)`, as a second-of-day. -/
def WINDOW_END : Nat := 23 * 3600 + 59 * 60

/-- `CHECK_INTERVAL_SECONDS = 2 * 60 * 60`. -/
def CHECK_INTERVAL_SECONDS : Nat := 2 * 60 * 60

/-- `VALID_WEEKDAYS = {1, 2, 3}` (Tue, Wed, Thu in Python's convention). -/
def VALID_WEEKDAYS : List Nat := [1, 2, 3]

/-- `now.weekday()`. -/
def weekday (t : DT) : Nat := t.day % 7

/-- Adding a number of seconds to a timestamp (`now + timedelta(seconds=s)`),
for `s` small enough to roll over at most one midnight. -/
def addSeconds (t : DT) (s : Nat) : DT :=
  let x := t.tod + s
  if x < 86400 then ⟨t.day, x⟩ else ⟨t.day + 1, x - 86400⟩

/-- The window predicate evaluated by the main loop:
`now.weekday() in VALID_WEEKDAYS and WINDOW_START <= now.time() <= WINDOW_END`. -/
def insideWindow (t : DT) : Bool :=
  decide (weekday t ∈ VALID_WEEKDAYS) &&
    (decide (WINDOW_START ≤ t.tod) && decide (t.tod ≤ WINDOW_END))

/-- `next_tuesday_at_10(now)`.  The Python expression `(1 - now.weekday()) % 7`
uses Python's nonnegative remainder, which for a positive modulus agrees with
`Int.emod` (Lean's `%` on `Int`). -/
def next_tuesday_at_10 (now : DT) : DT :=
  let da : Nat := (((1 : Int) - (weekday now : Int)) % 7).toNat
  let da : Nat := if da = 0 ∧ WINDOW_START ≤ now.tod then 7 else da
  ⟨now.day + da, WINDOW_START⟩

/-- `next_valid_wakeup(now)`. -/
def next_valid_wakeup (now : DT) : DT :=
  if weekday now ∉ VALID_WEEKDAYS then next_tuesday_at_10 now
  else if now.tod < WINDOW_START then ⟨now.day, WINDOW_START⟩
  else if WINDOW_END < now.tod then ⟨now.day + 1, WINDOW_START⟩
  else addSeconds now CHECK_INTERVAL_SECONDS

/-- Order on timestamps (later-or-equal), lexicographic on (day, second). -/
def dtLe (a b : DT) : Prop := a.day < b.day ∨ (a.day = b.day ∧ a.tod ≤ b.tod)

/-- Strict order on timestamps. -/
def dtLt (a b : DT) : Prop := a.day < b.day ∨ (a.day = b.day ∧ a.tod < b.tod)

instance (a b : DT) : Decidable (dtLe a b) := by unfold dtLe; exact inferInstance

instance (a b : DT) : Decidable (dtLt a b) := by unfold dtLt; exact inferInstance

/-- Arithmetic characterisation of the window predicate. -/
lemma insideWindow_iff (t : DT) :
    insideWindow t = true ↔
      ((t.day % 7 = 1 ∨ t.day % 7 = 2 ∨ t.day % 7 = 3) ∧
        36000 ≤ t.tod ∧ t.tod ≤ 86340) := by
  simp [insideWindow, weekday, VALID_WEEKDAYS, WINDOW_START, WINDOW_END]

lemma insideWindow_eq_false_iff (t : DT) :
    insideWindow t = false ↔
      ¬ ((t.day % 7 = 1 ∨ t.day % 7 = 2 ∨ t.day % 7 = 3) ∧
        36000 ≤ t.tod ∧ t.tod ≤ 86340) := by
  rw [← insideWindow_iff]
  simp

/-- Evaluating `next_tuesday_at_10` on a Friday/Saturday/Sunday/Monday:
the jump lands on the following Tuesday's window start. -/
lemma ntt_invalid (now : DT) (w k : Nat) (hw : now.day % 7 = w)
    (hk : (((1 : Int) - (w : Int)) % 7).toNat = k) (hk0 : k ≠ 0) :
    next_tuesday_at_10 now = ⟨now.day + k, WINDOW_START⟩ := by
  unfold next_tuesday_at_10
  simp only [weekday, hw, hk]
  simp [hk0]

/-- Core of the out-of-window analysis for an invalid weekday: the computed
wakeup is the next Tuesday 10:00, which is inside the window and minimal. -/
lemma c5_invalid_core (now : DT) (k : Nat) (hk : 1 ≤ k)
    (hr : next_valid_wakeup now = ⟨now.day + k, WINDOW_START⟩)
    (hmod : (now.day + k) % 7 = 1)
    (hgap : ∀ j, now.day ≤ j → j < now.day + k →
      ¬(j % 7 = 1 ∨ j % 7 = 2 ∨ j % 7 = 3)) :
    dtLe now (next_valid_wakeup now) ∧
    insideWindow (next_valid_wakeup now) = true ∧
    ∀ t : DT, dtLe now t → dtLt t (next_valid_wakeup now) → insideWindow t = false := by
  rw [hr]
  refine ⟨Or.inl (show now.day < now.day + k by omega), ?_, ?_⟩
  · rw [insideWindow_iff]
    exact ⟨Or.inl hmod, by simp [WINDOW_START], by simp [WINDOW_START]⟩
  · intro t ht1 ht2
    rw [insideWindow_eq_false_iff]
    simp only [dtLe, dtLt, WINDOW_START] at ht1 ht2
    by_cases hday : t.day < now.day + k
    · intro hc
      exact hgap t.day (by omega) hday hc.1
    · intro hc
      omega

/-- C5 helper: on a valid weekday before the window start the wakeup is the
same-day window start. -/
lemma nvw_valid_before (now : DT) (hw : weekday now ∈ VALID_WEEKDAYS)
    (h : now.tod < WINDOW_START) :
    next_valid_wakeup now = ⟨now.day, WINDOW_START⟩ := by
  unfold next_valid_wakeup
  simp [hw, h]

/-- C5 helper: on a valid weekday past the window end the wakeup is the next
day's window start (whatever weekday that is). -/
lemma nvw_valid_after (now : DT) (hw : weekday now ∈ VALID_WEEKDAYS)
    (h : WINDOW_END < now.tod) :
    next_valid_wakeup now = ⟨now.day + 1, WINDOW_START⟩ := by
  unfold next_valid_wakeup
  have h2 : ¬ (now.tod < WINDOW_START) := by
    unfold WINDOW_START WINDOW_END at *
    omega
  simp [hw, h, h2]

/-- C5 (amended).  For every `now` outside the active window the scheduler's
wakeup `next_valid_wakeup now` is at or after `now`.  Whenever `now` is not a
Thursday past the window end, the wakeup moreover satisfies the inside-window
predicate and is the minimal such timestamp.  But for a Thursday past the
window end the code jumps to the NEXT day's window start, i.e. Friday 10:00,
which does not satisfy the inside-window predicate (the original claim fails
there). -/
theorem c5_scheduler_wakeup (now : DT) (hv : now.tod < 86400)
    (hout : insideWindow now = false) :
    dtLe now (next_valid_wakeup now) ∧
    (¬ (weekday now = 3 ∧ WINDOW_END < now.tod) →
      insideWindow (next_valid_wakeup now) = true ∧
      ∀ t : DT, dtLe now t → dtLt t (next_valid_wakeup now) → insideWindow t = false) ∧
    ((weekday now = 3 ∧ WINDOW_END < now.tod) →
      next_valid_wakeup now = ⟨now.day + 1, WINDOW_START⟩ ∧
      insideWindow (next_valid_wakeup now) = false) := by
  have hout' := (insideWindow_eq_false_iff now).mp hout
  by_cases hval : now.day % 7 = 1 ∨ now.day % 7 = 2 ∨ now.day % 7 = 3
  · -- valid weekday, so the time of day is outside [10:00, 23:59]
    have hmem : weekday now ∈ VALID_WEEKDAYS := by
      simp only [VALID_WEEKDAYS, weekday, List.mem_cons, List.not_mem_nil, or_false]
      tauto
    have htod : now.tod < 36000 ∨ 86340 < now.tod := by omega
    rcases htod with htod | htod
    · -- before the daily window: same-day window start
      have hr := nvw_valid_before now hmem (by simpa [WINDOW_START] using htod)
      rw [hr]
      refine ⟨Or.inr ⟨rfl, by simp [WINDOW_START]; omega⟩, fun _ => ⟨?_, ?_⟩, fun hc => ?_⟩
      · rw [insideWindow_iff]
        exact ⟨hval, by simp [WINDOW_START], by simp [WINDOW_START]⟩
      · intro t ht1 ht2
        rw [insideWindow_eq_false_iff]
        simp only [dtLe, dtLt, WINDOW_START] at ht1 ht2
        omega
      · exfalso
        simp only [WINDOW_END] at hc
        omega
    · -- past the daily window: next day's window start
      have hr := nvw_valid_after now hmem (by simpa [WINDOW_END] using htod)
      rw [hr]
      refine ⟨Or.inl (show now.day < now.day + 1 by omega), fun hne => ⟨?_, ?_⟩,
        fun hc => ⟨rfl, ?_⟩⟩
      · have h12 : now.day % 7 = 1 ∨ now.day % 7 = 2 := by
          simp only [weekday, WINDOW_END] at hne
          rcases hval with h | h | h
          · exact Or.inl h
          · exact Or.inr h
          · exact absurd ⟨h, by omega⟩ hne
        rw [insideWindow_iff]
        exact ⟨by dsimp only; omega, by simp [WINDOW_START], by simp [WINDOW_START]⟩
      · intro t ht1 ht2
        rw [insideWindow_eq_false_iff]
        simp only [dtLe, dtLt, WINDOW_START] at ht1 ht2
        omega
      · have h3 : now.day % 7 = 3 := hc.1
        rw [insideWindow_eq_false_iff]
        dsimp only
        omega
  · -- invalid weekday: the wakeup is next_tuesday_at_10
    have hmem : weekday now ∉ VALID_WEEKDAYS := by
      simp only [VALID_WEEKDAYS, weekday, List.mem_cons, List.not_mem_nil, or_false]
      tauto
    have hnv : next_valid_wakeup now = next_tuesday_at_10 now := by
      unfold next_valid_wakeup
      simp [hmem]
    have h7 : now.day % 7 < 7 := Nat.mod_lt _ (by norm_num)
    have hw4 : now.day % 7 = 0 ∨ now.day % 7 = 4 ∨ now.day % 7 = 5 ∨ now.day % 7 = 6 := by
      omega
    have hthu : ¬ (weekday now = 3 ∧ WINDOW_END < now.tod) := by
      simp only [weekday]
      rintro ⟨h3, -⟩
      omega
    rcases hw4 with hw | hw | hw | hw
    · have hr : next_valid_wakeup now = ⟨now.day + 1, WINDOW_START⟩ := by
        rw [hnv, ntt_invalid now 0 1 hw (by decide) (by decide)]
      have core := c5_invalid_core now 1 (by omega) hr (by omega) (by intro j h1 h2; omega)
      exact ⟨core.1, fun _ => ⟨core.2.1, core.2.2⟩, fun hc => absurd hc hthu⟩
    · have hr : next_valid_wakeup now = ⟨now.day + 4, WINDOW_START⟩ := by
        rw [hnv, ntt_invalid now 4 4 hw (by decide) (by decide)]
      have core := c5_invalid_core now 4 (by omega) hr (by omega) (by intro j h1 h2; omega)
      exact ⟨core.1, fun _ => ⟨core.2.1, core.2.2⟩, fun hc => absurd hc hthu⟩
    · have hr : next_valid_wakeup now = ⟨now.day + 3, WINDOW_START⟩ := by
        rw [hnv, ntt_invalid now 5 3 hw (by decide) (by decide)]
      have core := c5_invalid_core now 3 (by omega) hr (by omega) (by intro j h1 h2; omega)
      exact ⟨core.1, fun _ => ⟨core.2.1, core.2.2⟩, fun hc => absurd hc hthu⟩
    · have hr : next_valid_wakeup now = ⟨now.day + 2, WINDOW_START⟩ := by
        rw [hnv, ntt_invalid now 6 2 hw (by decide) (by decide)]
      have core := c5_invalid_core now 2 (by omega) hr (by omega) (by intro j h1 h2; omega)
      exact ⟨core.1, fun _ => ⟨core.2.1, core.2.2⟩, fun hc => absurd hc hthu⟩

/-- C5 counterexample: at Thursday 23:59:01 (day 3 of a Monday-based week,
second 86341) the system is outside the window, yet `next_valid_wakeup`
returns Friday 10:00 — a timestamp that does NOT satisfy the inside-window
predicate, contradicting the claim that the wakeup always satisfies it (the
true minimal inside-window instant is the following Tuesday 10:00). -/
theorem c5_counterexample :
    insideWindow ⟨3, 86341⟩ = false ∧
    next_valid_wakeup ⟨3, 86341⟩ = ⟨4, WINDOW_START⟩ ∧
    insideWindow ⟨4, WINDOW_START⟩ = false ∧
    insideWindow ⟨8, WINDOW_START⟩ = true := by decide

/-- Witness for `c5_scheduler_wakeup` at Saturday noon (day 5, second 43200). -/
theorem c5_scheduler_wakeup_witness :
    (43200 : Nat) < 86400 ∧ insideWindow ⟨5, 43200⟩ = false ∧
      dtLe ⟨5, 43200⟩ (next_valid_wakeup ⟨5, 43200⟩) :=
  ⟨by norm_num, by decide, (c5_scheduler_wakeup ⟨5, 43200⟩ (by norm_num) (by decide)).1⟩

/-! ## C6: the window predicate against the spec's wording -/

/-- Days of the week, for stating the spec-side window predicate. -/
inductive Weekday where
  | mon | tue | wed | thu | fri | sat | sun
deriving DecidableEq, Repr

/-- The day of the week of a timestamp (day 0 is a Monday). -/
def dayOfWeek (t : DT) : Weekday :=
  match t.day % 7 with
  | 0 => .mon
  | 1 => .tue
  | 2 => .wed
  | 3 => .thu
  | 4 => .fri
  | 5 => .sat
  | _ => .sun

/-- Spec-side window predicate, phrased from the spec's words: weekday is
Tuesday, Wednesday or Thursday, and the time of day lies in the inclusive
range from 10:00 to 23:59. -/
def spec_inside_window (t : DT) : Prop :=
  (dayOfWeek t = .tue ∨ dayOfWeek t = .wed ∨ dayOfWeek t = .thu) ∧
    (10 * 3600 ≤ t.tod ∧ t.tod ≤ 23 * 3600 + 59 * 60)

/-- C6: the inside-window predicate evaluated by the main loop is true exactly
when the weekday is Tuesday, Wednesday or Thursday and the time of day lies in
the inclusive range 10:00 to 23:59. -/
theorem c6_window_predicate (t : DT) :
    insideWindow t = true ↔ spec_inside_window t := by
  rw [insideWindow_iff]
  unfold spec_inside_window dayOfWeek
  have h7 : t.day % 7 = 0 ∨ t.day % 7 = 1 ∨ t.day % 7 = 2 ∨ t.day % 7 = 3 ∨
      t.day % 7 = 4 ∨ t.day % 7 = 5 ∨ t.day % 7 = 6 := by omega
  rcases h7 with h | h | h | h | h | h | h <;> rw [h] <;> simp

/-! ## Mailbox model

`process_mailbox` is embedded over an explicit state.  A message carries the
byte blob that a `(X-GM-LABELS)` fetch returns (the code checks the marker by
substring containment over those bytes) and its attachments.  The filesystem
is a path-to-content map with shadowing writes.  The two external
collaborators are deterministic oracles in `Env`: `stageOk` says whether
`encrypted.write_bytes(...)` succeeds for a payload (that call sits OUTSIDE
the `try` block in the code, so `false` means an exception escapes), and
`decrypt` gives the `qpdf` outcome for a payload: the exit status checked by
`check=True`, and the content, if any, that the tool left at the output
path. -/

/-- Byte-list begins-with test (used to build the substring check). -/
def leadB : List Char → List Char → Bool
  | [], _ => true
  | _ :: _, [] => false
  | a :: as, b :: bs => a == b && leadB as bs

/-- Substring containment over bytes: the model of Python's
`marker.encode() in label_bytes`. -/
def containsSub (m : List Char) : List Char → Bool
  | [] => leadB m []
  | l@(_ :: rest) => leadB m l || containsSub m rest

/-- Byte-list ends-with test. -/
def endsWithB (suf l : List Char) : Bool := leadB suf.reverse l.reverse

/-- Attachment eligibility from the code:
`filename.lower().endswith(".pdf")` (an absent or empty filename is skipped;
an empty string fails the suffix test just as Python's falsiness check
skips it). -/
def eligiblePdf (f : String) : Bool :=
  endsWithB ".pdf".data (f.data.map Char.toLower)

/-- `m` occurs contiguously somewhere inside `l`. -/
def occursIn (m l : List Char) : Prop := ∃ x y, l = x ++ (m ++ y)

/-- `TMP_DIR = Path("/tmp/payslips")`, as path components. -/
def TMP_DIR : List String := ["tmp", "payslips"]

/-- `CONSUME_DIR = Path("/consume")`, as path components. -/
def CONSUME_DIR : List String := ["consume"]

/-- `encrypted = TMP_DIR / filename`. -/
def stagingPath (f : String) : List String := TMP_DIR ++ [f]

/-- `decrypted = CONSUME_DIR / filename`. -/
def sinkPath (f : String) : List String := CONSUME_DIR ++ [f]

/-- The filesystem: an association list from paths to contents; `fsPut`
shadows earlier entries so `fsGet` sees the most recent write. -/
abbrev FS := List (List String × List Char)

def fsGet : FS → List String → Option (List Char)
  | [], _ => none
  | e :: rest, p => if e.1 = p then some e.2 else fsGet rest p

/-- `path.exists()`. -/
def fsHas (fs : FS) (p : List String) : Bool := (fsGet fs p).isSome

/-- `path.write_bytes(v)` (also the decryptor writing its output file). -/
def fsPut (fs : FS) (p : List String) (v : List Char) : FS := (p, v) :: fs

/-- `path.unlink()`: drop every entry stored at the path. -/
def fsRemove : FS → List String → FS
  | [], _ => []
  | e :: rest, p => if e.1 = p then fsRemove rest p else e :: fsRemove rest p

structure Attachment where
  filename : Option String
  payload : List Char
deriving DecidableEq, Repr

structure Message where
  labels : List Char
  attachments : List Attachment
deriving DecidableEq, Repr

structure Mailbox where
  searchOk : Bool
  msgs : List Message
deriving DecidableEq, Repr

/-- Outcome of one `qpdf` run on a staged payload: `exitOk` is whether the
process exited 0 (`subprocess.run(..., check=True)` raises otherwise), and
`output` is the content the tool left at the output path, if any — the code
never inspects the output file, only the exit status. -/
structure DecOut where
  exitOk : Bool
  output : Option (List Char)
deriving DecidableEq, Repr

/-- Deterministic oracles for the run: the configured processed-label marker,
the staging `write_bytes` outcome per payload (`false` = raises), and the
decryptor behaviour per payload. -/
structure Env where
  processedLabel : List Char
  stageOk : List Char → Bool
  decrypt : List Char → DecOut

/-- Observable events of a run (instrumentation of the embedding). -/
inductive Ev where
  | fetchLabels (i : Nat)
  | skipMarked (i : Nat)
  | fetchBody (i : Nat)
  | attempt (i : Nat) (f : String)
  | staged (i : Nat) (f : String)
  | sunk (i : Nat) (f : String)
  | decOk (i : Nat) (f : String)
  | decFail (i : Nat) (f : String)
  | stageFail (i : Nat) (f : String)
  | markerAdded (i : Nat)
  | logout
deriving DecidableEq, Repr

/-- `mail.store(msg_id, "+X-GM-LABELS", f'"{label}"')`: afterwards the label
blob fetched for the message contains the quoted marker. -/
def addMarker (mk : List Char) (m : Message) : Message :=
  ⟨m.labels ++ ('"' :: (mk ++ ['"'])), m.attachments⟩

/-- Message at index `i` (message ids are positions in the search result). -/
def getMsg : List Message → Nat → Message
  | [], _ => ⟨[], []⟩
  | m :: _, 0 => m
  | _ :: rest, i + 1 => getMsg rest i

/-- Result of processing a list of attachments: `ok = false` means an
exception escaped (staging write failed); `flag` is
`file_processed_in_msg`. -/
structure AOut where
  ok : Bool
  fs : FS
  evs : List Ev
  flag : Bool
deriving DecidableEq, Repr

/-- Result of a whole run. `result = none` means an exception escaped
`process_mailbox`; `some b` is the returned boolean `processed_any`. -/
structure MOut where
  result : Option Bool
  msgs : List Message
  fs : FS
  evs : List Ev
deriving DecidableEq, Repr

/-- `encrypted.write_bytes(part.get_payload(decode=True))`. -/
def stageFs (f : String) (payload : List Char) (fs : FS) : FS :=
  fsPut fs (stagingPath f) payload

/-- Whatever the decryptor leaves at the sink path (written during
`decrypt_pdf`, whether or not the exit status is 0). -/
def outFs (env : Env) (f : String) (payload : List Char) (fs : FS) : FS :=
  match (env.decrypt payload).output with
  | some o => fsPut fs (sinkPath f) o
  | none => fs

/-- `if encrypted.exists(): encrypted.unlink()` — note the code checks the
STAGING path here, not the sink output. -/
def cleanFs (f : String) (fs : FS) : FS :=
  if fsHas fs (stagingPath f) = true then fsRemove fs (stagingPath f) else fs

/-- Events of the staging + decrypt step. -/
def outEvs (env : Env) (i : Nat) (f : String) (payload : List Char) : List Ev :=
  match (env.decrypt payload).output with
  | some _ => [Ev.attempt i f, Ev.staged i f, Ev.sunk i f]
  | none => [Ev.attempt i f, Ev.staged i f]

/-- One iteration of `for part in msg.iter_attachments()`. -/
def attStep (env : Env) (i : Nat) (a : Attachment) (fs : FS) (flag : Bool) : AOut :=
  match a.filename with
  | none => ⟨true, fs, [], flag⟩
  | some f =>
    if eligiblePdf f = false then ⟨true, fs, [], flag⟩
    else if env.stageOk a.payload = false then
      ⟨false, fs, [Ev.attempt i f, Ev.stageFail i f], flag⟩
    else
      let fs2 := outFs env f a.payload (stageFs f a.payload fs)
      if (env.decrypt a.payload).exitOk then
        ⟨true, cleanFs f fs2, outEvs env i f a.payload ++ [Ev.decOk i f], true⟩
      else
        ⟨true, fs2, outEvs env i f a.payload ++ [Ev.decFail i f], flag⟩

/-- The inner attachment loop of `process_mailbox` for message `i`. -/
def runAtts (env : Env) (i : Nat) : List Attachment → FS → Bool → AOut
  | [], fs, flag => ⟨true, fs, [], flag⟩
  | a :: rest, fs, flag =>
    let s := attStep env i a fs flag
    if s.ok then
      let r := runAtts env i rest s.fs s.flag
      ⟨r.ok, r.fs, s.evs ++ r.evs, r.flag⟩
    else ⟨false, s.fs, s.evs, s.flag⟩

/-- The outer message loop of `process_mailbox`, over the (already reversed)
list of message ids; `acc` is `processed_any`. -/
def runMsgs (env : Env) : List Nat → List Message → FS → Bool → MOut
  | [], msgs, fs, acc => ⟨some acc, msgs, fs, [Ev.logout]⟩
  | i :: rest, msgs, fs, acc =>
    let m := getMsg msgs i
    if containsSub env.processedLabel m.labels then
      let r := runMsgs env rest msgs fs acc
      ⟨r.result, r.msgs, r.fs, Ev.fetchLabels i :: Ev.skipMarked i :: r.evs⟩
    else
      let s := runAtts env i m.attachments fs false
      if s.ok then
        if s.flag then
          let r := runMsgs env rest (msgs.set i (addMarker env.processedLabel m)) s.fs true
          ⟨r.result, r.msgs, r.fs,
            Ev.fetchLabels i :: Ev.fetchBody i :: (s.evs ++ Ev.markerAdded i :: r.evs)⟩
        else
          let r := runMsgs env rest msgs s.fs acc
          ⟨r.result, r.msgs, r.fs, Ev.fetchLabels i :: Ev.fetchBody i :: (s.evs ++ r.evs)⟩
      else ⟨none, msgs, s.fs, Ev.fetchLabels i :: Ev.fetchBody i :: s.evs⟩

/-- `process_mailbox()`.  Search failure and an empty search result both log
out and return `False`; otherwise the ids are processed newest-first
(reversed search order) and the run returns `processed_any`. -/
def process_mailbox (env : Env) (mb : Mailbox) (fs : FS) : MOut :=
  if mb.searchOk = false then ⟨some false, mb.msgs, fs, [Ev.logout]⟩
  else if mb.msgs.length = 0 then ⟨some false, mb.msgs, fs, [Ev.logout]⟩
  else runMsgs env (List.range mb.msgs.length).reverse mb.msgs fs false

/-- The `try/except` around `process_mailbox()` in the main loop: an escaped
exception is caught and logged, and the iteration proceeds as if nothing was
processed. -/
def loopIter (env : Env) (mb : Mailbox) (fs : FS) : Bool :=
  (process_mailbox env mb fs).result.getD false

/-! ## Basic lemmas: substrings, the filesystem map, message indexing -/

lemma leadB_iff (m : List Char) : ∀ l, leadB m l = true ↔ ∃ y, l = m ++ y := by
  induction m with
  | nil => intro l; simp [leadB]
  | cons a as ih =>
    intro l
    cases l with
    | nil => simp [leadB]
    | cons b bs =>
      simp only [leadB, Bool.and_eq_true, beq_iff_eq, List.cons_append, List.cons.injEq, ih]
      constructor
      · rintro ⟨rfl, y, rfl⟩
        exact ⟨y, rfl, rfl⟩
      · rintro ⟨y, rfl, rfl⟩
        exact ⟨rfl, y, rfl⟩

lemma containsSub_iff (m : List Char) : ∀ l, containsSub m l = true ↔ occursIn m l := by
  intro l
  induction l with
  | nil =>
    show leadB m [] = true ↔ _
    rw [leadB_iff]
    constructor
    · rintro ⟨y, hy⟩
      exact ⟨[], y, by simpa using hy⟩
    · rintro ⟨x, y, hxy⟩
      have := hxy.symm
      simp only [List.append_eq_nil] at this
      exact ⟨y, by simp [this.1, this.2.1, this.2.2]⟩
  | cons b rest ih =>
    show (leadB m (b :: rest) || containsSub m rest) = true ↔ _
    rw [Bool.or_eq_true, leadB_iff, ih]
    constructor
    · rintro (⟨y, hy⟩ | ⟨x, y, hxy⟩)
      · exact ⟨[], y, by simpa using hy⟩
      · exact ⟨b :: x, y, by simp [hxy]⟩
    · rintro ⟨x, y, hxy⟩
      cases x with
      | nil => exact Or.inl ⟨y, by simpa using hxy⟩
      | cons c xs =>
        simp only [List.cons_append, List.cons.injEq] at hxy
        exact Or.inr ⟨xs, y, hxy.2⟩

/-- After `addMarker`, the substring check finds the marker. -/
lemma containsSub_addMarker (mk : List Char) (m : Message) :
    containsSub mk (addMarker mk m).labels = true := by
  rw [containsSub_iff]
  exact ⟨m.labels ++ ['"'], ['"'], by simp [addMarker]⟩

lemma addMarker_attachments (mk : List Char) (m : Message) :
    (addMarker mk m).attachments = m.attachments := rfl

lemma fsGet_put_self (fs : FS) (p : List String) (v : List Char) :
    fsGet (fsPut fs p v) p = some v := by
  simp [fsPut, fsGet]

lemma fsGet_put_ne (fs : FS) (p q : List String) (v : List Char) (h : q ≠ p) :
    fsGet (fsPut fs p v) q = fsGet fs q := by
  simp only [fsPut, fsGet]
  rw [if_neg (fun hh => h hh.symm)]

lemma fsGet_remove (fs : FS) (p q : List String) :
    fsGet (fsRemove fs p) q = if q = p then none else fsGet fs q := by
  induction fs with
  | nil => simp [fsRemove, fsGet]
  | cons e rest ih =>
    simp only [fsRemove]
    by_cases h1 : e.1 = p
    · rw [if_pos h1, ih]
      by_cases h2 : q = p
      · simp [h2]
      · rw [if_neg h2, if_neg h2]
        simp only [fsGet]
        rw [if_neg (by rw [h1]; exact fun hh => h2 hh.symm)]
    · rw [if_neg h1]
      simp only [fsGet]
      by_cases h3 : e.1 = q
      · have hqp : q ≠ p := fun hh => h1 (by rw [h3, hh])
        rw [if_pos h3, if_neg hqp, if_pos h3]
      · rw [if_neg h3, ih]
        by_cases h2 : q = p
        · simp [h2]
        · rw [if_neg h2, if_neg h2, if_neg h3]

lemma fsHas_put_self (fs : FS) (p : List String) (v : List Char) :
    fsHas (fsPut fs p v) p = true := by
  simp [fsHas, fsGet_put_self]

lemma fsHas_put_ne (fs : FS) (p q : List String) (v : List Char) (h : q ≠ p) :
    fsHas (fsPut fs p v) q = fsHas fs q := by
  simp [fsHas, fsGet_put_ne fs p q v h]

lemma fsHas_put_mono (fs : FS) (p q : List String) (v : List Char)
    (h : fsHas fs q = true) : fsHas (fsPut fs p v) q = true := by
  by_cases hq : q = p
  · subst hq; exact fsHas_put_self fs q v
  · rw [fsHas_put_ne fs p q v hq]; exact h

lemma fsHas_put_present (fs : FS) (p q : List String) (v : List Char)
    (h : fsHas fs p = true) : fsHas (fsPut fs p v) q = fsHas fs q := by
  by_cases hq : q = p
  · subst hq
    rw [fsHas_put_self fs q v, h]
  · exact fsHas_put_ne fs p q v hq

lemma fsHas_remove (fs : FS) (p q : List String) :
    fsHas (fsRemove fs p) q = if q = p then false else fsHas fs q := by
  simp only [fsHas, fsGet_remove]
  by_cases h : q = p <;> simp [h]

lemma sinkPath_ne_staging (f g : String) : sinkPath f ≠ stagingPath g := by
  intro h
  simpa [sinkPath, stagingPath, TMP_DIR, CONSUME_DIR] using congrArg List.length h

lemma staging_ne_sinkPath (f g : String) : stagingPath f ≠ sinkPath g :=
  fun h => sinkPath_ne_staging g f h.symm

lemma getMsg_set_self (l : List Message) (i : Nat) (x : Message) (h : i < l.length) :
    getMsg (l.set i x) i = x := by
  induction l generalizing i with
  | nil => simp at h
  | cons m rest ih =>
    cases i with
    | zero => rfl
    | succ j =>
      simp only [List.set, getMsg]
      exact ih j (by simpa using h)

lemma getMsg_set_ne (l : List Message) (i j : Nat) (x : Message) (h : j ≠ i) :
    getMsg (l.set i x) j = getMsg l j := by
  induction l generalizing i j with
  | nil => cases i <;> rfl
  | cons m rest ih =>
    cases i with
    | zero =>
      cases j with
      | zero => exact absurd rfl h
      | succ j2 => rfl
    | succ i2 =>
      cases j with
      | zero => rfl
      | succ j2 =>
        simp only [List.set, getMsg]
        exact ih i2 j2 (fun hh => h (by rw [hh]))

/-! ## Attachment-level predicates and `attStep` characterisation -/

/-- Every eligible view of `a` stages fine but fails to decrypt (exit ≠ 0). -/
def attFails (env : Env) (a : Attachment) : Prop :=
  ∀ f, a.filename = some f → eligiblePdf f = true →
    env.stageOk a.payload = true ∧ (env.decrypt a.payload).exitOk = false

/-- `a` is an eligible attachment whose decrypt exits 0. -/
def attSucc (env : Env) (a : Attachment) : Prop :=
  ∃ f, a.filename = some f ∧ eligiblePdf f = true ∧ (env.decrypt a.payload).exitOk = true

/-- The staging write for `a` succeeds whenever `a` is eligible. -/
def attStages (env : Env) (a : Attachment) : Prop :=
  ∀ f, a.filename = some f → eligiblePdf f = true → env.stageOk a.payload = true

/-- Whatever the decryptor would write for `a` is already present in `fs`. -/
def attOutputsIn (env : Env) (fs : FS) (a : Attachment) : Prop :=
  ∀ f, a.filename = some f → eligiblePdf f = true →
    ∀ o, (env.decrypt a.payload).output = some o → fsHas fs (sinkPath f) = true

/-- The marker check of the code succeeds on `m`'s label blob. -/
def markedP (env : Env) (m : Message) : Prop :=
  containsSub env.processedLabel m.labels = true

instance (env : Env) (m : Message) : Decidable (markedP env m) := by
  unfold markedP
  exact inferInstance

lemma attStep_none (env : Env) (i : Nat) (a : Attachment) (fs : FS) (flag : Bool)
    (h : a.filename = none) : attStep env i a fs flag = ⟨true, fs, [], flag⟩ := by
  unfold attStep
  rw [h]

lemma attStep_inelig (env : Env) (i : Nat) (a : Attachment) (fs : FS) (flag : Bool)
    (f : String) (h : a.filename = some f) (he : eligiblePdf f = false) :
    attStep env i a fs flag = ⟨true, fs, [], flag⟩ := by
  unfold attStep
  rw [h]
  simp [he]

lemma attStep_stageFail (env : Env) (i : Nat) (a : Attachment) (fs : FS) (flag : Bool)
    (f : String) (h : a.filename = some f) (he : eligiblePdf f = true)
    (hs : env.stageOk a.payload = false) :
    attStep env i a fs flag = ⟨false, fs, [Ev.attempt i f, Ev.stageFail i f], flag⟩ := by
  unfold attStep
  rw [h]
  simp [he, hs]

lemma attStep_decFail (env : Env) (i : Nat) (a : Attachment) (fs : FS) (flag : Bool)
    (f : String) (h : a.filename = some f) (he : eligiblePdf f = true)
    (hs : env.stageOk a.payload = true) (hd : (env.decrypt a.payload).exitOk = false) :
    attStep env i a fs flag =
      ⟨true, outFs env f a.payload (stageFs f a.payload fs),
        outEvs env i f a.payload ++ [Ev.decFail i f], flag⟩ := by
  unfold attStep
  rw [h]
  simp [he, hs, hd]

lemma attStep_decSucc (env : Env) (i : Nat) (a : Attachment) (fs : FS) (flag : Bool)
    (f : String) (h : a.filename = some f) (he : eligiblePdf f = true)
    (hs : env.stageOk a.payload = true) (hd : (env.decrypt a.payload).exitOk = true) :
    attStep env i a fs flag =
      ⟨true, cleanFs f (outFs env f a.payload (stageFs f a.payload fs)),
        outEvs env i f a.payload ++ [Ev.decOk i f], true⟩ := by
  unfold attStep
  rw [h]
  simp [he, hs, hd]

lemma stageFs_sink (f g : String) (payload : List Char) (fs : FS) :
    fsHas (stageFs f payload fs) (sinkPath g) = fsHas fs (sinkPath g) :=
  fsHas_put_ne fs (stagingPath f) (sinkPath g) payload (sinkPath_ne_staging g f)

lemma cleanFs_sink (f g : String) (fs : FS) :
    fsHas (cleanFs f fs) (sinkPath g) = fsHas fs (sinkPath g) := by
  unfold cleanFs
  by_cases h : fsHas fs (stagingPath f) = true
  · rw [if_pos h, fsHas_remove, if_neg (sinkPath_ne_staging g f)]
  · rw [if_neg h]

lemma outFs_sink_mono (env : Env) (f g : String) (payload : List Char) (fs : FS)
    (h : fsHas fs (sinkPath g) = true) :
    fsHas (outFs env f payload fs) (sinkPath g) = true := by
  unfold outFs
  cases ho : (env.decrypt payload).output with
  | none => exact h
  | some o => exact fsHas_put_mono fs (sinkPath f) (sinkPath g) o h

lemma outFs_sink_self (env : Env) (f : String) (payload : List Char) (fs : FS)
    (o : List Char) (ho : (env.decrypt payload).output = some o) :
    fsHas (outFs env f payload fs) (sinkPath f) = true := by
  unfold outFs
  rw [ho]
  exact fsHas_put_self fs (sinkPath f) o

lemma outFs_sink_present (env : Env) (f g : String) (payload : List Char) (fs : FS)
    (h : ∀ o, (env.decrypt payload).output = some o → fsHas fs (sinkPath f) = true) :
    fsHas (outFs env f payload fs) (sinkPath g) = fsHas fs (sinkPath g) := by
  unfold outFs
  cases ho : (env.decrypt payload).output with
  | none => rfl
  | some o => exact fsHas_put_present fs (sinkPath f) (sinkPath g) o (h o ho)

lemma attStep_sink_mono (env : Env) (i : Nat) (a : Attachment) (fs : FS) (flag : Bool)
    (g : String) (h : fsHas fs (sinkPath g) = true) :
    fsHas (attStep env i a fs flag).fs (sinkPath g) = true := by
  cases hf : a.filename with
  | none => rw [attStep_none env i a fs flag hf]; exact h
  | some f =>
    by_cases he : eligiblePdf f = true
    · by_cases hs : env.stageOk a.payload = true
      · by_cases hd : (env.decrypt a.payload).exitOk = true
        · rw [attStep_decSucc env i a fs flag f hf he hs hd]
          show fsHas (cleanFs f _) _ = true
          rw [cleanFs_sink]
          exact outFs_sink_mono env f g a.payload _ (by rw [stageFs_sink]; exact h)
        · rw [attStep_decFail env i a fs flag f hf he hs
            (by revert hd; cases (env.decrypt a.payload).exitOk <;> simp)]
          exact outFs_sink_mono env f g a.payload _ (by rw [stageFs_sink]; exact h)
      · rw [attStep_stageFail env i a fs flag f hf he
          (by revert hs; cases env.stageOk a.payload <;> simp)]
        exact h
    · rw [attStep_inelig env i a fs flag f hf
        (by revert he; cases eligiblePdf f <;> simp)]
      exact h

lemma attStep_flagMono (env : Env) (i : Nat) (a : Attachment) (fs : FS) :
    (attStep env i a fs true).flag = true := by
  cases hf : a.filename with
  | none => rw [attStep_none env i a fs true hf]
  | some f =>
    by_cases he : eligiblePdf f = true
    · by_cases hs : env.stageOk a.payload = true
      · by_cases hd : (env.decrypt a.payload).exitOk = true
        · rw [attStep_decSucc env i a fs true f hf he hs hd]
        · rw [attStep_decFail env i a fs true f hf he hs
            (by revert hd; cases (env.decrypt a.payload).exitOk <;> simp)]
      · rw [attStep_stageFail env i a fs true f hf he
          (by revert hs; cases env.stageOk a.payload <;> simp)]
    · rw [attStep_inelig env i a fs true f hf
        (by revert he; cases eligiblePdf f <;> simp)]

/-! ## `runAtts`: the inner attachment loop -/

lemma runAtts_cons_eq (env : Env) (i : Nat) (a : Attachment) (rest : List Attachment)
    (fs : FS) (flag : Bool) :
    runAtts env i (a :: rest) fs flag =
      if (attStep env i a fs flag).ok = true then
        ⟨(runAtts env i rest (attStep env i a fs flag).fs (attStep env i a fs flag).flag).ok,
         (runAtts env i rest (attStep env i a fs flag).fs (attStep env i a fs flag).flag).fs,
         (attStep env i a fs flag).evs ++
           (runAtts env i rest (attStep env i a fs flag).fs (attStep env i a fs flag).flag).evs,
         (runAtts env i rest (attStep env i a fs flag).fs (attStep env i a fs flag).flag).flag⟩
      else ⟨false, (attStep env i a fs flag).fs, (attStep env i a fs flag).evs,
        (attStep env i a fs flag).flag⟩ := rfl

/-- `a` has a filename that passes the `.pdf` eligibility check. -/
def attEligible (a : Attachment) : Prop :=
  ∃ f, a.filename = some f ∧ eligiblePdf f = true

/-- Exhaustive description of one attachment step. -/
lemma attStep_cases (env : Env) (i : Nat) (a : Attachment) (fs : FS) (flag : Bool) :
    (attStep env i a fs flag = ⟨true, fs, [], flag⟩ ∧ attFails env a ∧
      (∀ fsx, attOutputsIn env fsx a) ∧ ¬ attSucc env a ∧ ¬ attEligible a) ∨
    (∃ f, a.filename = some f ∧ eligiblePdf f = true ∧ env.stageOk a.payload = false ∧
      attStep env i a fs flag = ⟨false, fs, [Ev.attempt i f, Ev.stageFail i f], flag⟩) ∨
    (∃ f, a.filename = some f ∧ eligiblePdf f = true ∧ env.stageOk a.payload = true ∧
      (env.decrypt a.payload).exitOk = false ∧
      attStep env i a fs flag = ⟨true, outFs env f a.payload (stageFs f a.payload fs),
        outEvs env i f a.payload ++ [Ev.decFail i f], flag⟩ ∧ attFails env a) ∨
    (∃ f, a.filename = some f ∧ eligiblePdf f = true ∧ env.stageOk a.payload = true ∧
      (env.decrypt a.payload).exitOk = true ∧
      attStep env i a fs flag = ⟨true,
        cleanFs f (outFs env f a.payload (stageFs f a.payload fs)),
        outEvs env i f a.payload ++ [Ev.decOk i f], true⟩ ∧ attSucc env a) := by
  rcases hf : a.filename with - | f
  · refine Or.inl ⟨attStep_none env i a fs flag hf, ?_, ?_, ?_, ?_⟩
    · intro f hf2 _
      rw [hf] at hf2
      exact Option.noConfusion hf2
    · intro fsx f hf2 _
      rw [hf] at hf2
      exact Option.noConfusion hf2
    · rintro ⟨f, hf2, -, -⟩
      rw [hf] at hf2
      exact Option.noConfusion hf2
    · rintro ⟨f, hf2, -⟩
      rw [hf] at hf2
      exact Option.noConfusion hf2
  · by_cases he : eligiblePdf f = true
    · by_cases hs : env.stageOk a.payload = true
      · by_cases hd : (env.decrypt a.payload).exitOk = true
        · exact Or.inr (Or.inr (Or.inr ⟨f, rfl, he, hs, hd,
            attStep_decSucc env i a fs flag f hf he hs hd, ⟨f, hf, he, hd⟩⟩))
        · have hd2 : (env.decrypt a.payload).exitOk = false := by
            revert hd; cases (env.decrypt a.payload).exitOk <;> simp
          refine Or.inr (Or.inr (Or.inl ⟨f, rfl, he, hs, hd2,
            attStep_decFail env i a fs flag f hf he hs hd2, ?_⟩))
          intro f2 hf2 _
          rw [hf] at hf2
          injection hf2 with hff
          subst hff
          exact ⟨hs, hd2⟩
      · have hs2 : env.stageOk a.payload = false := by
          revert hs; cases env.stageOk a.payload <;> simp
        exact Or.inr (Or.inl ⟨f, rfl, he, hs2,
          attStep_stageFail env i a fs flag f hf he hs2⟩)
    · have he2 : eligiblePdf f = false := by
        revert he; cases eligiblePdf f <;> simp
      refine Or.inl ⟨attStep_inelig env i a fs flag f hf he2, ?_, ?_, ?_, ?_⟩
      · intro f2 hf2 he3
        rw [hf] at hf2
        injection hf2 with hff
        subst hff
        rw [he3] at he2
        exact Bool.noConfusion he2
      · intro fsx f2 hf2 he3
        rw [hf] at hf2
        injection hf2 with hff
        subst hff
        rw [he3] at he2
        exact Bool.noConfusion he2
      · rintro ⟨f2, hf2, he3, -⟩
        rw [hf] at hf2
        injection hf2 with hff
        subst hff
        rw [he3] at he2
        exact Bool.noConfusion he2
      · rintro ⟨f2, hf2, he3⟩
        rw [hf] at hf2
        injection hf2 with hff
        subst hff
        rw [he3] at he2
        exact Bool.noConfusion he2

lemma runAtts_flagMono (env : Env) (i : Nat) (as : List Attachment) :
    ∀ fs, (runAtts env i as fs true).flag = true := by
  induction as with
  | nil => intro fs; rfl
  | cons a rest ih =>
    intro fs
    rw [runAtts_cons_eq]
    by_cases h : (attStep env i a fs true).ok = true
    · rw [if_pos h]
      show (runAtts env i rest _ (attStep env i a fs true).flag).flag = true
      rw [attStep_flagMono]
      exact ih _
    · rw [if_neg h]
      exact attStep_flagMono env i a fs

lemma runAtts_sink_mono (env : Env) (i : Nat) (as : List Attachment) :
    ∀ fs flag g, fsHas fs (sinkPath g) = true →
      fsHas (runAtts env i as fs flag).fs (sinkPath g) = true := by
  induction as with
  | nil => intro fs flag g h; exact h
  | cons a rest ih =>
    intro fs flag g h
    rw [runAtts_cons_eq]
    by_cases hok : (attStep env i a fs flag).ok = true
    · rw [if_pos hok]
      exact ih _ _ g (attStep_sink_mono env i a fs flag g h)
    · rw [if_neg hok]
      exact attStep_sink_mono env i a fs flag g h

/-- Post-conditions of a normally-completed attachment loop: a raised `flag`
means some attachment in the list decrypted successfully, and a low `flag`
means every attachment failed benignly, with whatever the decryptor wrote
already present in the final filesystem. -/
lemma runAtts_post (env : Env) (i : Nat) (as : List Attachment) :
    ∀ fs flag, (runAtts env i as fs flag).ok = true →
      ((runAtts env i as fs flag).flag = true → flag = true ∨ ∃ a ∈ as, attSucc env a) ∧
      ((runAtts env i as fs flag).flag = false →
        flag = false ∧ ∀ a ∈ as, attFails env a ∧
          attOutputsIn env (runAtts env i as fs flag).fs a) := by
  induction as with
  | nil =>
    intro fs flag _
    refine ⟨fun h => Or.inl h, fun h => ⟨h, ?_⟩⟩
    intro a ha
    exact absurd ha (List.not_mem_nil a)
  | cons a rest ih =>
    intro fs flag hok
    rw [runAtts_cons_eq] at hok ⊢
    by_cases hsok : (attStep env i a fs flag).ok = true
    · rw [if_pos hsok] at hok ⊢
      dsimp only at hok ⊢
      rcases attStep_cases env i a fs flag with
        ⟨heq, hfails, houts, -, -⟩ |
        ⟨f, hf, he, hs, heq⟩ |
        ⟨f, hf, he, hs, hd, heq, hfails⟩ |
        ⟨f, hf, he, hs, hd, heq, hsucc⟩
      · -- skipped attachment (no filename / not a pdf)
        rw [heq] at hok ⊢
        dsimp only at hok ⊢
        have IH := ih fs flag hok
        refine ⟨fun hfl => ?_, fun hfl => ?_⟩
        · rcases IH.1 hfl with h | ⟨a2, ha2, hsu⟩
          · exact Or.inl h
          · exact Or.inr ⟨a2, List.mem_cons_of_mem a ha2, hsu⟩
        · obtain ⟨hf0, hrest⟩ := IH.2 hfl
          refine ⟨hf0, ?_⟩
          intro a2 ha2
          rcases List.mem_cons.mp ha2 with rfl | ha2
          · exact ⟨hfails, houts _⟩
          · exact hrest a2 ha2
      · -- staging failure: contradicts normal completion
        rw [heq] at hsok
        exact absurd hsok (by simp)
      · -- benign decrypt failure
        rw [heq] at hok ⊢
        dsimp only at hok ⊢
        have IH := ih (outFs env f a.payload (stageFs f a.payload fs)) flag hok
        refine ⟨fun hfl => ?_, fun hfl => ?_⟩
        · rcases IH.1 hfl with h | ⟨a2, ha2, hsu⟩
          · exact Or.inl h
          · exact Or.inr ⟨a2, List.mem_cons_of_mem a ha2, hsu⟩
        · obtain ⟨hf0, hrest⟩ := IH.2 hfl
          refine ⟨hf0, ?_⟩
          intro a2 ha2
          rcases List.mem_cons.mp ha2 with rfl | ha2
          · refine ⟨hfails, ?_⟩
            intro f2 hf2 he2 o ho
            rw [hf] at hf2
            injection hf2 with hff
            subst hff
            exact runAtts_sink_mono env i rest _ flag f
              (outFs_sink_self env f a2.payload _ o ho)
          · exact hrest a2 ha2
      · -- successful decrypt: the flag is raised for good
        rw [heq] at hok ⊢
        dsimp only at hok ⊢
        refine ⟨fun _ => Or.inr ⟨a, List.mem_cons_self a rest, hsucc⟩, fun hfl => ?_⟩
        rw [runAtts_flagMono] at hfl
        exact absurd hfl (by simp)
    · rw [if_neg hsok] at hok
      dsimp only at hok
      exact absurd hok (by simp)

lemma attempt_mem_outEvs (env : Env) (i : Nat) (f : String) (payload : List Char) :
    Ev.attempt i f ∈ outEvs env i f payload := by
  unfold outEvs
  cases (env.decrypt payload).output <;> simp

lemma sunk_mem_outEvs (env : Env) (i : Nat) (f : String) (payload o : List Char)
    (ho : (env.decrypt payload).output = some o) :
    Ev.sunk i f ∈ outEvs env i f payload := by
  unfold outEvs
  rw [ho]
  simp

/-- Re-running the attachment loop when every attachment fails benignly and
all decryptor outputs are already on disk: the loop completes, the flag is
unchanged, and the sink directory's key set is untouched. -/
lemma runAtts_allfail (env : Env) (i : Nat) (as : List Attachment) :
    ∀ fs flag, (∀ a ∈ as, attFails env a) → (∀ a ∈ as, attOutputsIn env fs a) →
      (runAtts env i as fs flag).ok = true ∧
      (runAtts env i as fs flag).flag = flag ∧
      ∀ g, fsHas (runAtts env i as fs flag).fs (sinkPath g) = fsHas fs (sinkPath g) := by
  induction as with
  | nil => intro fs flag _ _; exact ⟨rfl, rfl, fun g => rfl⟩
  | cons a rest ih =>
    intro fs flag hfail houts
    rw [runAtts_cons_eq]
    rcases attStep_cases env i a fs flag with
      ⟨heq, -, -, -, -⟩ |
      ⟨f, hf, he, hs, heq⟩ |
      ⟨f, hf, he, hs, hd, heq, -⟩ |
      ⟨f, hf, he, hs, hd, heq, -⟩
    · rw [heq, if_pos rfl]
      dsimp only
      exact ih fs flag (fun a2 ha2 => hfail a2 (List.mem_cons_of_mem a ha2))
        (fun a2 ha2 => houts a2 (List.mem_cons_of_mem a ha2))
    · have := (hfail a (List.mem_cons_self a rest) f hf he).1
      rw [hs] at this
      exact absurd this (by simp)
    · rw [heq, if_pos rfl]
      dsimp only
      have hpres : ∀ o, (env.decrypt a.payload).output = some o →
          fsHas (stageFs f a.payload fs) (sinkPath f) = true := by
        intro o ho
        rw [stageFs_sink]
        exact houts a (List.mem_cons_self a rest) f hf he o ho
      have hsink : ∀ g,
          fsHas (outFs env f a.payload (stageFs f a.payload fs)) (sinkPath g)
            = fsHas fs (sinkPath g) := by
        intro g
        rw [outFs_sink_present env f g a.payload _ hpres, stageFs_sink]
      have houts2 : ∀ a2 ∈ rest,
          attOutputsIn env (outFs env f a.payload (stageFs f a.payload fs)) a2 := by
        intro a2 ha2 f2 hf2 he2 o ho
        rw [hsink f2]
        exact houts a2 (List.mem_cons_of_mem a ha2) f2 hf2 he2 o ho
      obtain ⟨hok2, hfl2, hsink2⟩ := ih _ flag
        (fun a2 ha2 => hfail a2 (List.mem_cons_of_mem a ha2)) houts2
      exact ⟨hok2, hfl2, fun g => (hsink2 g).trans (hsink g)⟩
    · have := (hfail a (List.mem_cons_self a rest) f hf he).2
      rw [hd] at this
      exact absurd this (by simp)

/-- When every staging write in the list succeeds, the attachment loop
completes, and for every eligible attachment the attempt (and on exit-0 the
success, and for any decryptor output the sink write) is visible. -/
lemma runAtts_cov (env : Env) (i : Nat) (as : List Attachment) :
    ∀ fs flag, (∀ a ∈ as, attStages env a) →
      (runAtts env i as fs flag).ok = true ∧
      ∀ a ∈ as, ∀ f, a.filename = some f → eligiblePdf f = true →
        Ev.attempt i f ∈ (runAtts env i as fs flag).evs ∧
        ((env.decrypt a.payload).exitOk = true →
          Ev.decOk i f ∈ (runAtts env i as fs flag).evs) ∧
        (∀ o, (env.decrypt a.payload).output = some o →
          Ev.sunk i f ∈ (runAtts env i as fs flag).evs ∧
          fsHas (runAtts env i as fs flag).fs (sinkPath f) = true) := by
  induction as with
  | nil =>
    intro fs flag _
    exact ⟨rfl, fun a ha => absurd ha (List.not_mem_nil a)⟩
  | cons a rest ih =>
    intro fs flag hst
    rw [runAtts_cons_eq]
    rcases attStep_cases env i a fs flag with
      ⟨heq, -, -, -, hnel⟩ |
      ⟨f, hf, he, hs, heq⟩ |
      ⟨f, hf, he, hs, hd, heq, -⟩ |
      ⟨f, hf, he, hs, hd, heq, -⟩
    · rw [heq, if_pos rfl]
      dsimp only
      obtain ⟨hok2, hcov⟩ := ih fs flag (fun a2 ha2 => hst a2 (List.mem_cons_of_mem a ha2))
      refine ⟨hok2, ?_⟩
      intro a2 ha2 f hf2 he2
      rcases List.mem_cons.mp ha2 with rfl | ha2
      · exact absurd ⟨f, hf2, he2⟩ hnel
      · simpa using hcov a2 ha2 f hf2 he2
    · have := hst a (List.mem_cons_self a rest) f hf he
      rw [hs] at this
      exact absurd this (by simp)
    · rw [heq, if_pos rfl]
      dsimp only
      obtain ⟨hok2, hcov⟩ := ih _ flag (fun a2 ha2 => hst a2 (List.mem_cons_of_mem a ha2))
      refine ⟨hok2, ?_⟩
      intro a2 ha2 f2 hf2 he2
      rcases List.mem_cons.mp ha2 with rfl | ha2
      · rw [hf] at hf2
        injection hf2 with hff
        subst hff
        refine ⟨List.mem_append_left _ (List.mem_append_left _
            (attempt_mem_outEvs env i f a2.payload)), ?_, ?_⟩
        · intro hdT
          rw [hdT] at hd
          exact absurd hd (by simp)
        · intro o ho
          refine ⟨List.mem_append_left _ (List.mem_append_left _
            (sunk_mem_outEvs env i f a2.payload o ho)), ?_⟩
          exact runAtts_sink_mono env i rest _ flag f
            (outFs_sink_self env f a2.payload _ o ho)
      · obtain ⟨h1, h2, h3⟩ := hcov a2 ha2 f2 hf2 he2
        exact ⟨List.mem_append_right _ h1, fun hdT => List.mem_append_right _ (h2 hdT),
          fun o ho => ⟨List.mem_append_right _ (h3 o ho).1, (h3 o ho).2⟩⟩
    · rw [heq, if_pos rfl]
      dsimp only
      obtain ⟨hok2, hcov⟩ := ih _ true (fun a2 ha2 => hst a2 (List.mem_cons_of_mem a ha2))
      refine ⟨hok2, ?_⟩
      intro a2 ha2 f2 hf2 he2
      rcases List.mem_cons.mp ha2 with rfl | ha2
      · rw [hf] at hf2
        injection hf2 with hff
        subst hff
        refine ⟨List.mem_append_left _ (List.mem_append_left _
            (attempt_mem_outEvs env i f a2.payload)), ?_, ?_⟩
        · intro _
          exact List.mem_append_left _ (List.mem_append_right _ (by simp))
        · intro o ho
          refine ⟨List.mem_append_left _ (List.mem_append_left _
            (sunk_mem_outEvs env i f a2.payload o ho)), ?_⟩
          refine runAtts_sink_mono env i rest _ true f ?_
          rw [cleanFs_sink]
          exact outFs_sink_self env f a2.payload _ o ho
      · obtain ⟨h1, h2, h3⟩ := hcov a2 ha2 f2 hf2 he2
        exact ⟨List.mem_append_right _ h1, fun hdT => List.mem_append_right _ (h2 hdT),
          fun o ho => ⟨List.mem_append_right _ (h3 o ho).1, (h3 o ho).2⟩⟩

/-- A staging-write failure aborts the attachment loop: the result is the
abnormal outcome and the event trace ends at the staging failure. -/
lemma runAtts_abort (env : Env) (i : Nat) (a : Attachment)
    (post : List Attachment) (f : String) (hf : a.filename = some f)
    (he : eligiblePdf f = true) (hs : env.stageOk a.payload = false) :
    ∀ (pre : List Attachment) fs flag, (∀ b ∈ pre, attStages env b) →
      (runAtts env i (pre ++ a :: post) fs flag).ok = false ∧
      ∃ l, (runAtts env i (pre ++ a :: post) fs flag).evs = l ++ [Ev.stageFail i f] := by
  intro pre
  induction pre with
  | nil =>
    intro fs flag _
    simp only [List.nil_append]
    rw [runAtts_cons_eq, attStep_stageFail env i a fs flag f hf he hs, if_neg (by simp)]
    exact ⟨rfl, [Ev.attempt i f], rfl⟩
  | cons b pre2 ih =>
    intro fs flag hpre
    simp only [List.cons_append]
    rw [runAtts_cons_eq]
    rcases attStep_cases env i b fs flag with
      ⟨heq, -, -, -, -⟩ |
      ⟨g, hg, heg, hsg, heq⟩ |
      ⟨g, hg, heg, hsg, hdg, heq, -⟩ |
      ⟨g, hg, heg, hsg, hdg, heq, -⟩
    · rw [heq, if_pos rfl]
      dsimp only
      obtain ⟨hok2, l, hl⟩ := ih fs flag (fun b2 hb2 => hpre b2 (List.mem_cons_of_mem b hb2))
      exact ⟨hok2, l, by rw [List.nil_append, hl]⟩
    · have := hpre b (List.mem_cons_self b pre2) g hg heg
      rw [hsg] at this
      exact absurd this (by simp)
    · rw [heq, if_pos rfl]
      dsimp only
      obtain ⟨hok2, l, hl⟩ := ih _ flag (fun b2 hb2 => hpre b2 (List.mem_cons_of_mem b hb2))
      refine ⟨hok2, (outEvs env i g b.payload ++ [Ev.decFail i g]) ++ l, ?_⟩
      rw [hl]
      simp [List.append_assoc]
    · rw [heq, if_pos rfl]
      dsimp only
      obtain ⟨hok2, l, hl⟩ := ih _ true (fun b2 hb2 => hpre b2 (List.mem_cons_of_mem b hb2))
      refine ⟨hok2, (outEvs env i g b.payload ++ [Ev.decOk i g]) ++ l, ?_⟩
      rw [hl]
      simp [List.append_assoc]

/-- Does an event belong to the body-processing of message `i`?
(`fetchLabels`/`skipMarked`/`logout` are excluded on purpose.) -/
def touches (e : Ev) (i : Nat) : Bool :=
  match e with
  | .fetchBody j => j == i
  | .attempt j _ => j == i
  | .staged j _ => j == i
  | .sunk j _ => j == i
  | .decOk j _ => j == i
  | .decFail j _ => j == i
  | .stageFail j _ => j == i
  | .markerAdded j => j == i
  | _ => false

lemma outEvs_shape (env : Env) (j : Nat) (f : String) (payload : List Char) :
    ∀ e ∈ outEvs env j f payload,
      e = Ev.attempt j f ∨ e = Ev.staged j f ∨ e = Ev.sunk j f := by
  intro e he
  unfold outEvs at he
  cases ho : (env.decrypt payload).output <;> rw [ho] at he <;> simp at he <;> tauto

lemma attStep_evs_shape (env : Env) (j : Nat) (a : Attachment) (fs : FS) (flag : Bool) :
    ∀ e ∈ (attStep env j a fs flag).evs, ∃ f,
      e = Ev.attempt j f ∨ e = Ev.staged j f ∨ e = Ev.sunk j f ∨
      e = Ev.decOk j f ∨ e = Ev.decFail j f ∨ e = Ev.stageFail j f := by
  intro e he
  rcases attStep_cases env j a fs flag with
    ⟨heq, -, -, -, -⟩ |
    ⟨f, hf, hel, hs, heq⟩ |
    ⟨f, hf, hel, hs, hd, heq, -⟩ |
    ⟨f, hf, hel, hs, hd, heq, -⟩
  · rw [heq] at he
    exact absurd he (List.not_mem_nil e)
  · rw [heq] at he
    simp at he
    rcases he with rfl | rfl
    · exact ⟨f, Or.inl rfl⟩
    · exact ⟨f, by tauto⟩
  · rw [heq] at he
    rcases List.mem_append.mp he with he2 | he2
    · rcases outEvs_shape env j f a.payload e he2 with rfl | rfl | rfl <;> exact ⟨f, by tauto⟩
    · simp at he2
      exact ⟨f, by tauto⟩
  · rw [heq] at he
    rcases List.mem_append.mp he with he2 | he2
    · rcases outEvs_shape env j f a.payload e he2 with rfl | rfl | rfl <;> exact ⟨f, by tauto⟩
    · simp at he2
      exact ⟨f, by tauto⟩

lemma runAtts_evs_shape (env : Env) (j : Nat) (as : List Attachment) :
    ∀ fs flag e, e ∈ (runAtts env j as fs flag).evs → ∃ f,
      e = Ev.attempt j f ∨ e = Ev.staged j f ∨ e = Ev.sunk j f ∨
      e = Ev.decOk j f ∨ e = Ev.decFail j f ∨ e = Ev.stageFail j f := by
  induction as with
  | nil => intro fs flag e he; exact absurd he (List.not_mem_nil e)
  | cons a rest ih =>
    intro fs flag e he
    rw [runAtts_cons_eq] at he
    by_cases hok : (attStep env j a fs flag).ok = true
    · rw [if_pos hok] at he
      dsimp only at he
      rcases List.mem_append.mp he with he2 | he2
      · exact attStep_evs_shape env j a fs flag e he2
      · exact ih _ _ e he2
    · rw [if_neg hok] at he
      exact attStep_evs_shape env j a fs flag e he

lemma runAtts_no_logout (env : Env) (j : Nat) (as : List Attachment) (fs : FS)
    (flag : Bool) : Ev.logout ∉ (runAtts env j as fs flag).evs := by
  intro h
  obtain ⟨f, hsh⟩ := runAtts_evs_shape env j as fs flag Ev.logout h
  rcases hsh with h1 | h1 | h1 | h1 | h1 | h1 <;> exact Ev.noConfusion h1

lemma runAtts_touch_ne (env : Env) (j i : Nat) (hne : j ≠ i) (as : List Attachment)
    (fs : FS) (flag : Bool) :
    ∀ e ∈ (runAtts env j as fs flag).evs, touches e i = false := by
  intro e he
  obtain ⟨f, hsh⟩ := runAtts_evs_shape env j as fs flag e he
  rcases hsh with rfl | rfl | rfl | rfl | rfl | rfl <;> simp [touches, hne]

/-! ## `runMsgs`: the outer message loop -/

/-- Every staging write in message `m` succeeds. -/
def msgStages (env : Env) (m : Message) : Prop := ∀ a ∈ m.attachments, attStages env a

lemma runMsgs_cons_eq (env : Env) (i : Nat) (rest : List Nat) (msgs : List Message)
    (fs : FS) (acc : Bool) :
    runMsgs env (i :: rest) msgs fs acc =
      if containsSub env.processedLabel (getMsg msgs i).labels = true then
        ⟨(runMsgs env rest msgs fs acc).result, (runMsgs env rest msgs fs acc).msgs,
         (runMsgs env rest msgs fs acc).fs,
         Ev.fetchLabels i :: Ev.skipMarked i :: (runMsgs env rest msgs fs acc).evs⟩
      else if (runAtts env i (getMsg msgs i).attachments fs false).ok = true then
        if (runAtts env i (getMsg msgs i).attachments fs false).flag = true then
          ⟨(runMsgs env rest (msgs.set i (addMarker env.processedLabel (getMsg msgs i)))
              (runAtts env i (getMsg msgs i).attachments fs false).fs true).result,
           (runMsgs env rest (msgs.set i (addMarker env.processedLabel (getMsg msgs i)))
              (runAtts env i (getMsg msgs i).attachments fs false).fs true).msgs,
           (runMsgs env rest (msgs.set i (addMarker env.processedLabel (getMsg msgs i)))
              (runAtts env i (getMsg msgs i).attachments fs false).fs true).fs,
           Ev.fetchLabels i :: Ev.fetchBody i ::
             ((runAtts env i (getMsg msgs i).attachments fs false).evs ++
               Ev.markerAdded i ::
                 (runMsgs env rest (msgs.set i (addMarker env.processedLabel (getMsg msgs i)))
                   (runAtts env i (getMsg msgs i).attachments fs false).fs true).evs)⟩
        else
          ⟨(runMsgs env rest msgs
              (runAtts env i (getMsg msgs i).attachments fs false).fs acc).result,
           (runMsgs env rest msgs
              (runAtts env i (getMsg msgs i).attachments fs false).fs acc).msgs,
           (runMsgs env rest msgs
              (runAtts env i (getMsg msgs i).attachments fs false).fs acc).fs,
           Ev.fetchLabels i :: Ev.fetchBody i ::
             ((runAtts env i (getMsg msgs i).attachments fs false).evs ++
               (runMsgs env rest msgs
                 (runAtts env i (getMsg msgs i).attachments fs false).fs acc).evs)⟩
      else ⟨none, msgs, (runAtts env i (getMsg msgs i).attachments fs false).fs,
        Ev.fetchLabels i :: Ev.fetchBody i ::
          (runAtts env i (getMsg msgs i).attachments fs false).evs⟩ := rfl

/-- The session is logged out exactly on the normally-returning paths. -/
lemma runMsgs_logout (env : Env) (ids : List Nat) :
    ∀ msgs fs acc, (Ev.logout ∈ (runMsgs env ids msgs fs acc).evs ↔
      (runMsgs env ids msgs fs acc).result.isSome = true) := by
  induction ids with
  | nil => intro msgs fs acc; simp [runMsgs]
  | cons i rest ih =>
    intro msgs fs acc
    rw [runMsgs_cons_eq]
    by_cases hm : containsSub env.processedLabel (getMsg msgs i).labels = true
    · rw [if_pos hm]
      dsimp only
      simpa using ih msgs fs acc
    · rw [if_neg hm]
      by_cases hok : (runAtts env i (getMsg msgs i).attachments fs false).ok = true
      · rw [if_pos hok]
        have hnl := runAtts_no_logout env i (getMsg msgs i).attachments fs false
        by_cases hfl : (runAtts env i (getMsg msgs i).attachments fs false).flag = true
        · rw [if_pos hfl]
          dsimp only
          simpa [List.mem_append, hnl] using ih _ _ true
        · rw [if_neg hfl]
          dsimp only
          simpa [List.mem_append, hnl] using ih _ _ acc
      · rw [if_neg hok]
        dsimp only
        simp [List.mem_append, runAtts_no_logout env i (getMsg msgs i).attachments fs false]

/-- Post-state of a normally-returning message loop: every processed index was
either already marked (and left alone), or got the marker because one of its
attachments decrypted, or had every attachment fail benignly (left unmarked,
with all decryptor outputs present in the final filesystem). -/
lemma runMsgs_post (env : Env) (ids : List Nat) :
    ∀ msgs fs acc res, ids.Nodup → (∀ i ∈ ids, i < msgs.length) →
      (runMsgs env ids msgs fs acc).result = some res →
      (runMsgs env ids msgs fs acc).msgs.length = msgs.length ∧
      (∀ j, j ∉ ids → getMsg (runMsgs env ids msgs fs acc).msgs j = getMsg msgs j) ∧
      (∀ g, fsHas fs (sinkPath g) = true →
        fsHas (runMsgs env ids msgs fs acc).fs (sinkPath g) = true) ∧
      (∀ i ∈ ids,
        (markedP env (getMsg msgs i) ∧
          getMsg (runMsgs env ids msgs fs acc).msgs i = getMsg msgs i) ∨
        (¬ markedP env (getMsg msgs i) ∧
          getMsg (runMsgs env ids msgs fs acc).msgs i
            = addMarker env.processedLabel (getMsg msgs i) ∧
          ∃ a ∈ (getMsg msgs i).attachments, attSucc env a) ∨
        (¬ markedP env (getMsg msgs i) ∧
          getMsg (runMsgs env ids msgs fs acc).msgs i = getMsg msgs i ∧
          (∀ a ∈ (getMsg msgs i).attachments, attFails env a) ∧
          (∀ a ∈ (getMsg msgs i).attachments,
            attOutputsIn env (runMsgs env ids msgs fs acc).fs a))) := by
  induction ids with
  | nil =>
    intro msgs fs acc res _ _ _
    exact ⟨rfl, fun j _ => rfl, fun g h => h, fun i hi => absurd hi (List.not_mem_nil i)⟩
  | cons i rest ih =>
    intro msgs fs acc res hnd hbd hres
    obtain ⟨hni, hnd2⟩ := List.nodup_cons.mp hnd
    have hbd2 : ∀ j ∈ rest, j < msgs.length := fun j hj => hbd j (List.mem_cons_of_mem i hj)
    have hbdi : i < msgs.length := hbd i (List.mem_cons_self i rest)
    rw [runMsgs_cons_eq] at hres ⊢
    by_cases hm : containsSub env.processedLabel (getMsg msgs i).labels = true
    · rw [if_pos hm] at hres ⊢
      dsimp only at hres ⊢
      obtain ⟨IH1, IH2, IH3, IH4⟩ := ih msgs fs acc res hnd2 hbd2 hres
      refine ⟨IH1, fun j hj => IH2 j (fun hj2 => hj (List.mem_cons_of_mem i hj2)), IH3, ?_⟩
      intro j hj
      rcases List.mem_cons.mp hj with rfl | hj2
      · exact Or.inl ⟨hm, IH2 j hni⟩
      · exact IH4 j hj2
    · rw [if_neg hm] at hres ⊢
      by_cases hok : (runAtts env i (getMsg msgs i).attachments fs false).ok = true
      · rw [if_pos hok] at hres ⊢
        by_cases hfl : (runAtts env i (getMsg msgs i).attachments fs false).flag = true
        · -- some attachment succeeded: the message gets the marker
          rw [if_pos hfl] at hres ⊢
          dsimp only at hres ⊢
          have hbd2' : ∀ j ∈ rest,
              j < (msgs.set i (addMarker env.processedLabel (getMsg msgs i))).length := by
            intro j hj
            rw [List.length_set]
            exact hbd2 j hj
          obtain ⟨IH1, IH2, IH3, IH4⟩ := ih _ _ true res hnd2 hbd2' hres
          have hsucc : ∃ a ∈ (getMsg msgs i).attachments, attSucc env a := by
            rcases (runAtts_post env i (getMsg msgs i).attachments fs false hok).1 hfl with
              h | h
            · exact absurd h (by simp)
            · exact h
          refine ⟨by rw [IH1, List.length_set], ?_, ?_, ?_⟩
          · intro j hj
            rw [IH2 j (fun hj2 => hj (List.mem_cons_of_mem i hj2)),
              getMsg_set_ne msgs i j _ (fun hh => hj (hh ▸ List.mem_cons_self i rest))]
          · intro g hg
            exact IH3 g (runAtts_sink_mono env i (getMsg msgs i).attachments fs false g hg)
          · intro j hj
            rcases List.mem_cons.mp hj with rfl | hj2
            · refine Or.inr (Or.inl ⟨hm, ?_, hsucc⟩)
              rw [IH2 j hni, getMsg_set_self msgs j _ hbdi]
            · have hji : j ≠ i := fun hh => hni (hh ▸ hj2)
              have hset : getMsg (msgs.set i (addMarker env.processedLabel (getMsg msgs i))) j
                  = getMsg msgs j := getMsg_set_ne msgs i j _ hji
              rcases IH4 j hj2 with ⟨h1, h2⟩ | ⟨h1, h2, h3⟩ | ⟨h1, h2, h3, h4⟩
              · rw [hset] at h1 h2
                exact Or.inl ⟨h1, h2⟩
              · rw [hset] at h1 h2 h3
                exact Or.inr (Or.inl ⟨h1, h2, h3⟩)
              · rw [hset] at h1 h2 h3 h4
                exact Or.inr (Or.inr ⟨h1, h2, h3, h4⟩)
        · -- every attachment failed benignly: no marker
          rw [if_neg hfl] at hres ⊢
          dsimp only at hres ⊢
          obtain ⟨IH1, IH2, IH3, IH4⟩ := ih msgs _ acc res hnd2 hbd2 hres
          have hflf : (runAtts env i (getMsg msgs i).attachments fs false).flag = false := by
            revert hfl
            cases (runAtts env i (getMsg msgs i).attachments fs false).flag <;> simp
          obtain ⟨-, hall⟩ := (runAtts_post env i (getMsg msgs i).attachments fs false hok).2
            hflf
          refine ⟨IH1, fun j hj => IH2 j (fun hj2 => hj (List.mem_cons_of_mem i hj2)), ?_, ?_⟩
          · intro g hg
            exact IH3 g (runAtts_sink_mono env i (getMsg msgs i).attachments fs false g hg)
          · intro j hj
            rcases List.mem_cons.mp hj with rfl | hj2
            · refine Or.inr (Or.inr ⟨hm, IH2 j hni, fun a ha => (hall a ha).1, ?_⟩)
              intro a ha f hf he o ho
              exact IH3 f ((hall a ha).2 f hf he o ho)
            · exact IH4 j hj2
      · rw [if_neg hok] at hres
        dsimp only at hres
        exact absurd hres (by simp)

lemma runMsgs_sink_mono (env : Env) (ids : List Nat) :
    ∀ msgs fs acc g, fsHas fs (sinkPath g) = true →
      fsHas (runMsgs env ids msgs fs acc).fs (sinkPath g) = true := by
  induction ids with
  | nil => intro msgs fs acc g h; exact h
  | cons i rest ih =>
    intro msgs fs acc g h
    rw [runMsgs_cons_eq]
    by_cases hm : containsSub env.processedLabel (getMsg msgs i).labels = true
    · rw [if_pos hm]
      exact ih msgs fs acc g h
    · rw [if_neg hm]
      have hs := runAtts_sink_mono env i (getMsg msgs i).attachments fs false g h
      by_cases hok : (runAtts env i (getMsg msgs i).attachments fs false).ok = true
      · rw [if_pos hok]
        by_cases hfl : (runAtts env i (getMsg msgs i).attachments fs false).flag = true
        · rw [if_pos hfl]
          exact ih _ _ true g hs
        · rw [if_neg hfl]
          exact ih _ _ acc g hs
      · rw [if_neg hok]
        exact hs

/-- Re-running the message loop over a state where every index is either
marked or consists solely of benignly-failing attachments whose outputs are
already on disk: the loop returns `acc`, changes no message, and leaves the
sink key set unchanged. -/
lemma runMsgs_idem (env : Env) (ids : List Nat) :
    ∀ msgs fs acc,
      (∀ i ∈ ids, markedP env (getMsg msgs i) ∨
        ((∀ a ∈ (getMsg msgs i).attachments, attFails env a) ∧
         (∀ a ∈ (getMsg msgs i).attachments, attOutputsIn env fs a))) →
      (runMsgs env ids msgs fs acc).result = some acc ∧
      (runMsgs env ids msgs fs acc).msgs = msgs ∧
      ∀ g, fsHas (runMsgs env ids msgs fs acc).fs (sinkPath g) = fsHas fs (sinkPath g) := by
  induction ids with
  | nil => intro msgs fs acc _; exact ⟨rfl, rfl, fun g => rfl⟩
  | cons i rest ih =>
    intro msgs fs acc h
    rw [runMsgs_cons_eq]
    by_cases hm : containsSub env.processedLabel (getMsg msgs i).labels = true
    · rw [if_pos hm]
      dsimp only
      exact ih msgs fs acc (fun j hj => h j (List.mem_cons_of_mem i hj))
    · rw [if_neg hm]
      rcases h i (List.mem_cons_self i rest) with hmk | ⟨hfail, houts⟩
      · exact absurd hmk hm
      · obtain ⟨hok, hfl, hsink⟩ :=
          runAtts_allfail env i (getMsg msgs i).attachments fs false hfail houts
        rw [if_pos hok, if_neg (by intro hc; rw [hfl] at hc; exact Bool.noConfusion hc)]
        dsimp only
        have hinv2 : ∀ j ∈ rest, markedP env (getMsg msgs j) ∨
            ((∀ a ∈ (getMsg msgs j).attachments, attFails env a) ∧
             (∀ a ∈ (getMsg msgs j).attachments, attOutputsIn env
               (runAtts env i (getMsg msgs i).attachments fs false).fs a)) := by
          intro j hj
          rcases h j (List.mem_cons_of_mem i hj) with hmk | ⟨hf2, ho2⟩
          · exact Or.inl hmk
          · refine Or.inr ⟨hf2, ?_⟩
            intro a ha f hfn he o ho
            rw [hsink f]
            exact ho2 a ha f hfn he o ho
        obtain ⟨r1, r2, r3⟩ := ih msgs _ acc hinv2
        exact ⟨r1, r2, fun g => (r3 g).trans (hsink g)⟩

/-- With every staging write succeeding, the run completes normally and, for
every unmarked candidate, every eligible attachment is attempted (with the
corresponding success / sink-write events when the decryptor reports them). -/
lemma runMsgs_cov (env : Env) (ids : List Nat) :
    ∀ msgs fs acc, ids.Nodup →
      (∀ i ∈ ids, msgStages env (getMsg msgs i)) →
      (runMsgs env ids msgs fs acc).result.isSome = true ∧
      ∀ i ∈ ids, ¬ markedP env (getMsg msgs i) →
        ∀ a ∈ (getMsg msgs i).attachments, ∀ f, a.filename = some f →
          eligiblePdf f = true →
          Ev.attempt i f ∈ (runMsgs env ids msgs fs acc).evs ∧
          ((env.decrypt a.payload).exitOk = true →
            Ev.decOk i f ∈ (runMsgs env ids msgs fs acc).evs) ∧
          (∀ o, (env.decrypt a.payload).output = some o →
            Ev.sunk i f ∈ (runMsgs env ids msgs fs acc).evs ∧
            fsHas (runMsgs env ids msgs fs acc).fs (sinkPath f) = true) := by
  induction ids with
  | nil =>
    intro msgs fs acc _ _
    exact ⟨rfl, fun i hi => absurd hi (List.not_mem_nil i)⟩
  | cons i rest ih =>
    intro msgs fs acc hnd hst
    obtain ⟨hni, hnd2⟩ := List.nodup_cons.mp hnd
    rw [runMsgs_cons_eq]
    by_cases hm : containsSub env.processedLabel (getMsg msgs i).labels = true
    · rw [if_pos hm]
      dsimp only
      obtain ⟨IH1, IH2⟩ := ih msgs fs acc hnd2
        (fun j hj => hst j (List.mem_cons_of_mem i hj))
      refine ⟨IH1, ?_⟩
      intro j hj hjm
      rcases List.mem_cons.mp hj with rfl | hj2
      · exact absurd hm hjm
      · intro a ha f hfn he
        obtain ⟨h1, h2, h3⟩ := IH2 j hj2 hjm a ha f hfn he
        exact ⟨by simp [h1], fun hd => by simp [h2 hd],
          fun o ho => ⟨by simp [(h3 o ho).1], (h3 o ho).2⟩⟩
    · rw [if_neg hm]
      obtain ⟨hok, hcov⟩ := runAtts_cov env i (getMsg msgs i).attachments fs false
        (hst i (List.mem_cons_self i rest))
      rw [if_pos hok]
      by_cases hfl : (runAtts env i (getMsg msgs i).attachments fs false).flag = true
      · rw [if_pos hfl]
        dsimp only
        have hst2 : ∀ j ∈ rest, msgStages env
            (getMsg (msgs.set i (addMarker env.processedLabel (getMsg msgs i))) j) := by
          intro j hj
          have hji : j ≠ i := fun hh => hni (hh ▸ hj)
          rw [getMsg_set_ne msgs i j _ hji]
          exact hst j (List.mem_cons_of_mem i hj)
        obtain ⟨IH1, IH2⟩ := ih _ _ true hnd2 hst2
        refine ⟨IH1, ?_⟩
        intro j hj hjm
        rcases List.mem_cons.mp hj with rfl | hj2
        · intro a ha f hfn he
          obtain ⟨h1, h2, h3⟩ := hcov a ha f hfn he
          refine ⟨by simp [List.mem_append, h1], fun hd => by simp [List.mem_append, h2 hd],
            fun o ho => ⟨by simp [List.mem_append, (h3 o ho).1], ?_⟩⟩
          exact runMsgs_sink_mono env rest _ _ true f (h3 o ho).2
        · have hji : j ≠ i := fun hh => hni (hh ▸ hj2)
          have hset : getMsg (msgs.set i (addMarker env.processedLabel (getMsg msgs i))) j
              = getMsg msgs j := getMsg_set_ne msgs i j _ hji
          rw [← hset] at hjm ⊢
          intro a ha f hfn he
          obtain ⟨h1, h2, h3⟩ := IH2 j hj2 hjm a ha f hfn he
          exact ⟨by simp [List.mem_append, h1], fun hd => by simp [List.mem_append, h2 hd],
            fun o ho => ⟨by simp [List.mem_append, (h3 o ho).1], (h3 o ho).2⟩⟩
      · rw [if_neg hfl]
        dsimp only
        obtain ⟨IH1, IH2⟩ := ih msgs _ acc hnd2
          (fun j hj => hst j (List.mem_cons_of_mem i hj))
        refine ⟨IH1, ?_⟩
        intro j hj hjm
        rcases List.mem_cons.mp hj with rfl | hj2
        · intro a ha f hfn he
          obtain ⟨h1, h2, h3⟩ := hcov a ha f hfn he
          refine ⟨by simp [List.mem_append, h1], fun hd => by simp [List.mem_append, h2 hd],
            fun o ho => ⟨by simp [List.mem_append, (h3 o ho).1], ?_⟩⟩
          exact runMsgs_sink_mono env rest msgs _ acc f (h3 o ho).2
        · intro a ha f hfn he
          obtain ⟨h1, h2, h3⟩ := IH2 j hj2 hjm a ha f hfn he
          exact ⟨by simp [List.mem_append, h1], fun hd => by simp [List.mem_append, h2 hd],
            fun o ho => ⟨by simp [List.mem_append, (h3 o ho).1], (h3 o ho).2⟩⟩

/-- If index `i` is marked whenever it is reached, the run produces no
body-processing event for `i` and leaves message `i` untouched. -/
lemma runMsgs_touch (env : Env) (ids : List Nat) (i : Nat) :
    ∀ msgs fs acc, (i ∈ ids → markedP env (getMsg msgs i)) →
      (∀ e ∈ (runMsgs env ids msgs fs acc).evs, touches e i = false) ∧
      getMsg (runMsgs env ids msgs fs acc).msgs i = getMsg msgs i := by
  induction ids with
  | nil =>
    intro msgs fs acc _
    refine ⟨?_, rfl⟩
    intro e he
    simp [runMsgs] at he
    rw [he]
    rfl
  | cons j rest ih =>
    intro msgs fs acc h
    rw [runMsgs_cons_eq]
    by_cases hm : containsSub env.processedLabel (getMsg msgs j).labels = true
    · rw [if_pos hm]
      dsimp only
      obtain ⟨IH1, IH2⟩ := ih msgs fs acc (fun hi => h (List.mem_cons_of_mem j hi))
      refine ⟨?_, IH2⟩
      intro e he
      rcases List.mem_cons.mp he with rfl | he2
      · rfl
      · rcases List.mem_cons.mp he2 with rfl | he3
        · rfl
        · exact IH1 e he3
    · rw [if_neg hm]
      have hji : j ≠ i := by
        rintro rfl
        exact hm (h (List.mem_cons_self j rest))
      have hbody : touches (Ev.fetchBody j) i = false := by
        simp [touches, hji]
      have hmark : touches (Ev.markerAdded j) i = false := by
        simp [touches, hji]
      have hatt := runAtts_touch_ne env j i hji (getMsg msgs j).attachments fs false
      by_cases hok : (runAtts env j (getMsg msgs j).attachments fs false).ok = true
      · rw [if_pos hok]
        by_cases hfl : (runAtts env j (getMsg msgs j).attachments fs false).flag = true
        · rw [if_pos hfl]
          dsimp only
          have hmem : i ∈ rest → markedP env
              (getMsg (msgs.set j (addMarker env.processedLabel (getMsg msgs j))) i) := by
            intro hi
            rw [getMsg_set_ne msgs j i _ (fun hh => hji hh.symm)]
            exact h (List.mem_cons_of_mem j hi)
          obtain ⟨IH1, IH2⟩ := ih _ _ true hmem
          refine ⟨?_, ?_⟩
          · intro e he
            rcases List.mem_cons.mp he with rfl | he2
            · rfl
            · rcases List.mem_cons.mp he2 with rfl | he3
              · exact hbody
              · rcases List.mem_append.mp he3 with he4 | he4
                · exact hatt e he4
                · rcases List.mem_cons.mp he4 with rfl | he5
                  · exact hmark
                  · exact IH1 e he5
          · rw [IH2, getMsg_set_ne msgs j i _ (fun hh => hji hh.symm)]
        · rw [if_neg hfl]
          dsimp only
          obtain ⟨IH1, IH2⟩ := ih msgs _ acc (fun hi => h (List.mem_cons_of_mem j hi))
          refine ⟨?_, IH2⟩
          intro e he
          rcases List.mem_cons.mp he with rfl | he2
          · rfl
          · rcases List.mem_cons.mp he2 with rfl | he3
            · exact hbody
            · rcases List.mem_append.mp he3 with he4 | he4
              · exact hatt e he4
              · exact IH1 e he4
      · rw [if_neg hok]
        dsimp only
        refine ⟨?_, rfl⟩
        intro e he
        rcases List.mem_cons.mp he with rfl | he2
        · rfl
        · rcases List.mem_cons.mp he2 with rfl | he3
          · exact hbody
          · exact hatt e he3

lemma list_set_oob (l : List Message) : ∀ i x, l.length ≤ i → l.set i x = l := by
  induction l with
  | nil => intro i x _; rfl
  | cons m rest ih =>
    intro i x h
    cases i with
    | zero => simp at h
    | succ j =>
      simp only [List.set]
      rw [ih j x (by simpa using h)]

lemma getMsg_set_oob (l : List Message) (i : Nat) (x : Message) (h : ¬ i < l.length) :
    getMsg (l.set i x) i = getMsg l i := by
  rw [list_set_oob l i x (by omega)]

/-- A staging-write failure in message `i` aborts the whole run: the result is
the escaped-exception outcome, the trace ends at the staging failure, no
logout happens, and no message after `i` (in processing order) is touched. -/
lemma runMsgs_abort (env : Env) (i : Nat) (f : String) (a : Attachment)
    (pre post : List Attachment) (ha : a.filename = some f)
    (he : eligiblePdf f = true) (hs : env.stageOk a.payload = false) :
    ∀ (l1 l2 : List Nat) msgs fs acc,
      (∀ j ∈ l1, j ≠ i) →
      (∀ j ∈ l1, msgStages env (getMsg msgs j)) →
      ¬ markedP env (getMsg msgs i) →
      (getMsg msgs i).attachments = pre ++ a :: post →
      (∀ b ∈ pre, attStages env b) →
      (runMsgs env (l1 ++ i :: l2) msgs fs acc).result = none ∧
      (∃ l, (runMsgs env (l1 ++ i :: l2) msgs fs acc).evs = l ++ [Ev.stageFail i f]) ∧
      Ev.logout ∉ (runMsgs env (l1 ++ i :: l2) msgs fs acc).evs ∧
      (∀ k, k ∉ l1 → k ≠ i →
        ∀ e ∈ (runMsgs env (l1 ++ i :: l2) msgs fs acc).evs, touches e k = false) := by
  intro l1
  induction l1 with
  | nil =>
    intro l2 msgs fs acc _ _ hm hatts hpre
    simp only [List.nil_append]
    have hm' : ¬ containsSub env.processedLabel (getMsg msgs i).labels = true := hm
    rw [runMsgs_cons_eq, if_neg hm']
    obtain ⟨hok, l, hl⟩ := runAtts_abort env i a post f ha he hs pre fs false hpre
    rw [hatts]
    rw [if_neg (by intro hc; rw [hok] at hc; exact Bool.noConfusion hc)]
    dsimp only
    have hnl := runAtts_no_logout env i (pre ++ a :: post) fs false
    refine ⟨rfl, ⟨Ev.fetchLabels i :: Ev.fetchBody i :: l, by rw [hl]; simp⟩, ?_, ?_⟩
    · intro hcon
      rcases List.mem_cons.mp hcon with hx | hx
      · exact Ev.noConfusion hx
      · rcases List.mem_cons.mp hx with hx2 | hx2
        · exact Ev.noConfusion hx2
        · exact hnl hx2
    · intro k _ hki e hecon
      have hik : i ≠ k := fun hh => hki hh.symm
      rcases List.mem_cons.mp hecon with rfl | hx
      · rfl
      · rcases List.mem_cons.mp hx with rfl | hx2
        · simp [touches, hik]
        · exact runAtts_touch_ne env i k hik (pre ++ a :: post) fs false e hx2
  | cons j l1' ih =>
    intro l2 msgs fs acc hne hst hm hatts hpre
    have hji : j ≠ i := hne j (List.mem_cons_self j l1')
    have hne2 : ∀ k ∈ l1', k ≠ i := fun k hk => hne k (List.mem_cons_of_mem j hk)
    simp only [List.cons_append]
    rw [runMsgs_cons_eq]
    by_cases hmj : containsSub env.processedLabel (getMsg msgs j).labels = true
    · rw [if_pos hmj]
      dsimp only
      obtain ⟨IH1, ⟨l, hl⟩, IH3, IH4⟩ := ih l2 msgs fs acc hne2
        (fun k hk => hst k (List.mem_cons_of_mem j hk)) hm hatts hpre
      refine ⟨IH1, ⟨Ev.fetchLabels j :: Ev.skipMarked j :: l, by rw [hl]; simp⟩, ?_, ?_⟩
      · intro hcon
        rcases List.mem_cons.mp hcon with hx | hx
        · exact Ev.noConfusion hx
        · rcases List.mem_cons.mp hx with hx2 | hx2
          · exact Ev.noConfusion hx2
          · exact IH3 hx2
      · intro k hkl hki e hecon
        have hkl' : k ∉ l1' := fun hx => hkl (List.mem_cons_of_mem j hx)
        rcases List.mem_cons.mp hecon with rfl | hx
        · rfl
        · rcases List.mem_cons.mp hx with rfl | hx2
          · rfl
          · exact IH4 k hkl' hki e hx2
    · rw [if_neg hmj]
      obtain ⟨hok, -⟩ := runAtts_cov env j (getMsg msgs j).attachments fs false
        (hst j (List.mem_cons_self j l1'))
      rw [if_pos hok]
      have hnlj := runAtts_no_logout env j (getMsg msgs j).attachments fs false
      by_cases hfl : (runAtts env j (getMsg msgs j).attachments fs false).flag = true
      · rw [if_pos hfl]
        dsimp only
        have hstep : ∀ k ∈ l1', msgStages env
            (getMsg (msgs.set j (addMarker env.processedLabel (getMsg msgs j))) k) := by
          intro k hk
          by_cases hkj : k = j
          · subst hkj
            by_cases hlen : k < msgs.length
            · rw [getMsg_set_self msgs k _ hlen]
              intro b hb
              rw [addMarker_attachments] at hb
              exact hst k (List.mem_cons_self k l1') b hb
            · rw [getMsg_set_oob msgs k _ hlen]
              exact hst k (List.mem_cons_self k l1')
          · rw [getMsg_set_ne msgs j k _ hkj]
            exact hst k (List.mem_cons_of_mem j hk)
        have hmset : ¬ markedP env
            (getMsg (msgs.set j (addMarker env.processedLabel (getMsg msgs j))) i) := by
          rw [getMsg_set_ne msgs j i _ (fun hh => hji hh.symm)]
          exact hm
        have hattset : (getMsg (msgs.set j
            (addMarker env.processedLabel (getMsg msgs j))) i).attachments
            = pre ++ a :: post := by
          rw [getMsg_set_ne msgs j i _ (fun hh => hji hh.symm)]
          exact hatts
        obtain ⟨IH1, ⟨l, hl⟩, IH3, IH4⟩ := ih l2 _ _ true hne2 hstep hmset hattset hpre
        refine ⟨IH1, ⟨Ev.fetchLabels j :: Ev.fetchBody j ::
          ((runAtts env j (getMsg msgs j).attachments fs false).evs ++
            Ev.markerAdded j :: l), by rw [hl]; simp⟩, ?_, ?_⟩
        · intro hcon
          rcases List.mem_cons.mp hcon with hx | hx
          · exact Ev.noConfusion hx
          · rcases List.mem_cons.mp hx with hx2 | hx2
            · exact Ev.noConfusion hx2
            · rcases List.mem_append.mp hx2 with hx3 | hx3
              · exact hnlj hx3
              · rcases List.mem_cons.mp hx3 with hx4 | hx4
                · exact Ev.noConfusion hx4
                · exact IH3 hx4
        · intro k hkl hki e hecon
          have hkl' : k ∉ l1' := fun hx => hkl (List.mem_cons_of_mem j hx)
          have hkj : j ≠ k := fun hh => hkl (hh ▸ List.mem_cons_self j l1')
          rcases List.mem_cons.mp hecon with rfl | hx
          · rfl
          · rcases List.mem_cons.mp hx with rfl | hx2
            · simp [touches, hkj]
            · rcases List.mem_append.mp hx2 with hx3 | hx3
              · exact runAtts_touch_ne env j k hkj (getMsg msgs j).attachments fs false e hx3
              · rcases List.mem_cons.mp hx3 with rfl | hx4
                · simp [touches, hkj]
                · exact IH4 k hkl' hki e hx4
      · rw [if_neg hfl]
        dsimp only
        obtain ⟨IH1, ⟨l, hl⟩, IH3, IH4⟩ := ih l2 msgs _ acc hne2
          (fun k hk => hst k (List.mem_cons_of_mem j hk)) hm hatts hpre
        refine ⟨IH1, ⟨Ev.fetchLabels j :: Ev.fetchBody j ::
          ((runAtts env j (getMsg msgs j).attachments fs false).evs ++ l),
          by rw [hl]; simp⟩, ?_, ?_⟩
        · intro hcon
          rcases List.mem_cons.mp hcon with hx | hx
          · exact Ev.noConfusion hx
          · rcases List.mem_cons.mp hx with hx2 | hx2
            · exact Ev.noConfusion hx2
            · rcases List.mem_append.mp hx2 with hx3 | hx3
              · exact hnlj hx3
              · exact IH3 hx3
        · intro k hkl hki e hecon
          have hkl' : k ∉ l1' := fun hx => hkl (List.mem_cons_of_mem j hx)
          have hkj : j ≠ k := fun hh => hkl (hh ▸ List.mem_cons_self j l1')
          rcases List.mem_cons.mp hecon with rfl | hx
          · rfl
          · rcases List.mem_cons.mp hx with rfl | hx2
            · simp [touches, hkj]
            · rcases List.mem_append.mp hx2 with hx3 | hx3
              · exact runAtts_touch_ne env j k hkj (getMsg msgs j).attachments fs false e hx3
              · exact IH4 k hkl' hki e hx3

/-- Splitting the reversed id list at an index: messages with larger indices
are processed before `i`, smaller ones after. -/
lemma range_rev_split (n i : Nat) (h : i < n) :
    (List.range n).reverse =
      (List.range' (i + 1) (n - i - 1)).reverse ++ i :: (List.range i).reverse := by
  induction n with
  | zero => omega
  | succ m ih =>
    have hrev : (List.range (m + 1)).reverse = m :: (List.range m).reverse := by
      rw [List.range_succ, List.reverse_append]
      rfl
    by_cases hm : i < m
    · rw [hrev, ih hm]
      have h1 : m + 1 - i - 1 = (m - i - 1) + 1 := by omega
      rw [h1, List.range'_concat]
      have h2 : i + 1 + 1 * (m - i - 1) = m := by omega
      rw [h2, List.reverse_append]
      rfl
    · have him : i = m := by omega
      subst him
      rw [hrev]
      have h1 : i + 1 - i - 1 = 0 := by omega
      rw [h1]
      rfl

/-! ## `process_mailbox`: claim-level theorems -/

lemma process_mailbox_triv (env : Env) (mb : Mailbox) (fs : FS)
    (h : mb.searchOk = false ∨ mb.msgs.length = 0) :
    process_mailbox env mb fs = ⟨some false, mb.msgs, fs, [Ev.logout]⟩ := by
  unfold process_mailbox
  rcases h with h | h
  · rw [if_pos h]
  · by_cases hso : mb.searchOk = false
    · rw [if_pos hso]
    · rw [if_neg hso, if_pos h]

lemma process_mailbox_run (env : Env) (mb : Mailbox) (fs : FS) (hso : mb.searchOk = true)
    (hlen : mb.msgs.length ≠ 0) :
    process_mailbox env mb fs =
      runMsgs env (List.range mb.msgs.length).reverse mb.msgs fs false := by
  unfold process_mailbox
  rw [hso]
  simp [hlen]

/-- C1: idempotence.  If `process_mailbox` returns normally, then running it
again against the resulting mailbox and filesystem (no new mail, markers as
left by the first run) returns the found-nothing outcome `False`, changes no
message, and leaves the set of files in the sink directory unchanged. -/
theorem c1_idempotence (env : Env) (mb : Mailbox) (fs : FS) (b : Bool)
    (hres : (process_mailbox env mb fs).result = some b) :
    (process_mailbox env ⟨mb.searchOk, (process_mailbox env mb fs).msgs⟩
        (process_mailbox env mb fs).fs).result = some false ∧
    (process_mailbox env ⟨mb.searchOk, (process_mailbox env mb fs).msgs⟩
        (process_mailbox env mb fs).fs).msgs = (process_mailbox env mb fs).msgs ∧
    ∀ f, fsHas (process_mailbox env ⟨mb.searchOk, (process_mailbox env mb fs).msgs⟩
          (process_mailbox env mb fs).fs).fs (sinkPath f)
        = fsHas (process_mailbox env mb fs).fs (sinkPath f) := by
  by_cases htriv : mb.searchOk = false ∨ mb.msgs.length = 0
  · rw [process_mailbox_triv env mb fs htriv]
    dsimp only
    rw [process_mailbox_triv env ⟨mb.searchOk, mb.msgs⟩ fs htriv]
    exact ⟨rfl, rfl, fun g => rfl⟩
  · push_neg at htriv
    obtain ⟨hso', hlen⟩ := htriv
    have hso : mb.searchOk = true := by revert hso'; cases mb.searchOk <;> simp
    rw [process_mailbox_run env mb fs hso hlen] at hres ⊢
    have hnd : ((List.range mb.msgs.length).reverse).Nodup :=
      List.nodup_reverse.mpr (List.nodup_range _)
    have hbd : ∀ i ∈ (List.range mb.msgs.length).reverse, i < mb.msgs.length := by
      intro i hi
      rw [List.mem_reverse, List.mem_range] at hi
      exact hi
    obtain ⟨P1, P2, P3, P4⟩ :=
      runMsgs_post env (List.range mb.msgs.length).reverse mb.msgs fs false b hnd hbd hres
    have hso2 : (⟨mb.searchOk,
        (runMsgs env (List.range mb.msgs.length).reverse mb.msgs fs false).msgs⟩
          : Mailbox).searchOk = true := hso
    have hlen2 : (⟨mb.searchOk,
        (runMsgs env (List.range mb.msgs.length).reverse mb.msgs fs false).msgs⟩
          : Mailbox).msgs.length ≠ 0 := by
      dsimp only
      rw [P1]
      exact hlen
    rw [process_mailbox_run env _ _ hso2 hlen2]
    dsimp only
    rw [P1]
    have hinv : ∀ i ∈ (List.range mb.msgs.length).reverse,
        markedP env (getMsg
          (runMsgs env (List.range mb.msgs.length).reverse mb.msgs fs false).msgs i) ∨
        ((∀ a ∈ (getMsg (runMsgs env (List.range mb.msgs.length).reverse
            mb.msgs fs false).msgs i).attachments, attFails env a) ∧
         (∀ a ∈ (getMsg (runMsgs env (List.range mb.msgs.length).reverse
            mb.msgs fs false).msgs i).attachments,
           attOutputsIn env
             (runMsgs env (List.range mb.msgs.length).reverse mb.msgs fs false).fs a)) := by
      intro i hi
      rcases P4 i hi with ⟨hmk, heq⟩ | ⟨-, heq, -⟩ | ⟨-, heq, hfails, houts⟩
      · rw [heq]
        exact Or.inl hmk
      · rw [heq]
        exact Or.inl (containsSub_addMarker env.processedLabel (getMsg mb.msgs i))
      · rw [heq]
        exact Or.inr ⟨hfails, houts⟩
    obtain ⟨I1, I2, I3⟩ := runMsgs_idem env (List.range mb.msgs.length).reverse _ _ false hinv
    exact ⟨I1, I2, I3⟩

/-- Witness for `c1_idempotence`: one message with one decryptable PDF. -/
theorem c1_idempotence_witness :
    (process_mailbox ⟨['P'], fun _ => true, fun _ => ⟨true, some ['z']⟩⟩
        ⟨true, [⟨[], [⟨some "a.pdf", ['x']⟩]⟩]⟩ []).result = some true ∧
    (process_mailbox ⟨['P'], fun _ => true, fun _ => ⟨true, some ['z']⟩⟩
        ⟨true, (process_mailbox ⟨['P'], fun _ => true, fun _ => ⟨true, some ['z']⟩⟩
          ⟨true, [⟨[], [⟨some "a.pdf", ['x']⟩]⟩]⟩ []).msgs⟩
        (process_mailbox ⟨['P'], fun _ => true, fun _ => ⟨true, some ['z']⟩⟩
          ⟨true, [⟨[], [⟨some "a.pdf", ['x']⟩]⟩]⟩ []).fs).result = some false :=
  ⟨by decide, (c1_idempotence ⟨['P'], fun _ => true, fun _ => ⟨true, some ['z']⟩⟩
      ⟨true, [⟨[], [⟨some "a.pdf", ['x']⟩]⟩]⟩ [] true (by decide)).1⟩

/-- C9 (amended): the mailbox session is logged out exactly when
`process_mailbox` returns normally (search failure, empty search result, and
full processing all log out), and an exception escaping the run — e.g. a
staging-write failure — skips the logout: there is no `try/finally` around
the session. -/
theorem c9_connection_release (env : Env) (mb : Mailbox) (fs : FS) :
    Ev.logout ∈ (process_mailbox env mb fs).evs ↔
      (process_mailbox env mb fs).result.isSome = true := by
  by_cases htriv : mb.searchOk = false ∨ mb.msgs.length = 0
  · rw [process_mailbox_triv env mb fs htriv]
    simp
  · push_neg at htriv
    obtain ⟨hso', hlen⟩ := htriv
    have hso : mb.searchOk = true := by revert hso'; cases mb.searchOk <;> simp
    rw [process_mailbox_run env mb fs hso hlen]
    exact runMsgs_logout env _ mb.msgs fs false

/-- C9 counterexample: one message whose attachment's staging write raises.
The run aborts (`result = none`) and the session is never logged out,
refuting "logged out on every path including error paths". -/
theorem c9_counterexample :
    Ev.logout ∉ (process_mailbox ⟨['P'], fun _ => false, fun _ => ⟨true, some ['z']⟩⟩
      ⟨true, [⟨[], [⟨some "b.pdf", ['y']⟩]⟩]⟩ []).evs ∧
    (process_mailbox ⟨['P'], fun _ => false, fun _ => ⟨true, some ['z']⟩⟩
      ⟨true, [⟨[], [⟨some "b.pdf", ['y']⟩]⟩]⟩ []).result = none := by decide

/-- C8: marker robustness.  If the processed-label string occurs anywhere
inside the label blob the mailbox returns for a candidate message — e.g. as
one of several unrelated labels — the message is skipped: its body is never
fetched, none of its attachments is attempted, staged or written to the sink,
and the message itself is left unchanged. -/
theorem c8_marker_robustness (env : Env) (mb : Mailbox) (fs : FS) (i : Nat)
    (_hi : i < mb.msgs.length)
    (hmk : occursIn env.processedLabel (getMsg mb.msgs i).labels) :
    Ev.fetchBody i ∉ (process_mailbox env mb fs).evs ∧
    (∀ f, Ev.attempt i f ∉ (process_mailbox env mb fs).evs ∧
      Ev.staged i f ∉ (process_mailbox env mb fs).evs ∧
      Ev.sunk i f ∉ (process_mailbox env mb fs).evs) ∧
    getMsg (process_mailbox env mb fs).msgs i = getMsg mb.msgs i := by
  have hmkP : markedP env (getMsg mb.msgs i) :=
    (containsSub_iff env.processedLabel (getMsg mb.msgs i).labels).mpr hmk
  by_cases htriv : mb.searchOk = false ∨ mb.msgs.length = 0
  · rw [process_mailbox_triv env mb fs htriv]
    dsimp only
    refine ⟨?_, ?_, rfl⟩
    · intro hc
      simp at hc
    · intro f
      refine ⟨?_, ?_, ?_⟩ <;> intro hc <;> simp at hc
  · push_neg at htriv
    obtain ⟨hso', hlen⟩ := htriv
    have hso : mb.searchOk = true := by revert hso'; cases mb.searchOk <;> simp
    rw [process_mailbox_run env mb fs hso hlen]
    obtain ⟨T1, T2⟩ := runMsgs_touch env (List.range mb.msgs.length).reverse i
      mb.msgs fs false (fun _ => hmkP)
    refine ⟨?_, ?_, T2⟩
    · intro hc
      have := T1 _ hc
      simp [touches] at this
    · intro f
      refine ⟨?_, ?_, ?_⟩ <;> intro hc <;> · have := T1 _ hc; simp [touches] at this

/-- Witness for `c8_marker_robustness`: the marker `P` occurs inside the
label blob `aPb` between unrelated bytes, so the message is skipped. -/
theorem c8_marker_robustness_witness :
    (0 : Nat) < 1 ∧
    occursIn ['P'] ['a', 'P', 'b'] ∧
    Ev.fetchBody 0 ∉ (process_mailbox ⟨['P'], fun _ => true, fun _ => ⟨true, some ['z']⟩⟩
      ⟨true, [⟨['a', 'P', 'b'], [⟨some "c.pdf", ['x']⟩]⟩]⟩ []).evs :=
  ⟨by norm_num, ⟨['a'], ['b'], rfl⟩,
    (c8_marker_robustness ⟨['P'], fun _ => true, fun _ => ⟨true, some ['z']⟩⟩
      ⟨true, [⟨['a', 'P', 'b'], [⟨some "c.pdf", ['x']⟩]⟩]⟩ [] 0 (by norm_num)
      ⟨['a'], ['b'], rfl⟩).1⟩

lemma cleanFs_sink_get (f g : String) (fs : FS) :
    fsGet (cleanFs f fs) (sinkPath g) = fsGet fs (sinkPath g) := by
  unfold cleanFs
  by_cases h : fsHas fs (stagingPath f) = true
  · rw [if_pos h, fsGet_remove, if_neg (sinkPath_ne_staging g f)]
  · rw [if_neg h]

/-- C10: the staging path is exactly `TMP_DIR/filename` and the sink path
exactly `CONSUME_DIR/filename`; two successfully-decrypted attachments in one
run carrying the same filename target the same sink path, so the later write
silently overwrites the earlier one — the loop completes with no renaming,
suffixing or collision error, and the sink holds the later content. -/
theorem c10_sink_path_overwrite (env : Env) (i : Nat) (a b : Attachment) (fs : FS)
    (flag : Bool) (f : String) (ha : a.filename = some f) (hb : b.filename = some f)
    (he : eligiblePdf f = true)
    (hsa : env.stageOk a.payload = true) (hsb : env.stageOk b.payload = true)
    (hda : (env.decrypt a.payload).exitOk = true)
    (hdb : (env.decrypt b.payload).exitOk = true)
    (oa ob : List Char)
    (_hoa : (env.decrypt a.payload).output = some oa)
    (hob : (env.decrypt b.payload).output = some ob) :
    stagingPath f = TMP_DIR ++ [f] ∧ sinkPath f = CONSUME_DIR ++ [f] ∧
    (runAtts env i [a, b] fs flag).ok = true ∧
    fsGet (runAtts env i [a, b] fs flag).fs (sinkPath f) = some ob := by
  rw [runAtts_cons_eq, attStep_decSucc env i a fs flag f ha he hsa hda, if_pos rfl]
  dsimp only
  rw [runAtts_cons_eq, attStep_decSucc env i b _ true f hb he hsb hdb, if_pos rfl]
  dsimp only
  refine ⟨rfl, rfl, rfl, ?_⟩
  show fsGet (cleanFs f (outFs env f b.payload (stageFs f b.payload _))) (sinkPath f)
    = some ob
  rw [cleanFs_sink_get]
  unfold outFs
  rw [hob]
  exact fsGet_put_self _ (sinkPath f) ob

/-- Witness for `c10_sink_path_overwrite`: `a.pdf` carried twice with
different payloads; the sink ends with the second plaintext. -/
theorem c10_sink_path_overwrite_witness :
    ((⟨some "a.pdf", ['1']⟩ : Attachment).filename = some "a.pdf") ∧
    fsGet (runAtts
      ⟨['P'], fun _ => true, fun p => if p = ['1'] then ⟨true, some ['A']⟩
        else ⟨true, some ['B']⟩⟩
      0 [⟨some "a.pdf", ['1']⟩, ⟨some "a.pdf", ['2']⟩] [] false).fs (sinkPath "a.pdf")
      = some ['B'] :=
  ⟨rfl, (c10_sink_path_overwrite
    ⟨['P'], fun _ => true, fun p => if p = ['1'] then ⟨true, some ['A']⟩
      else ⟨true, some ['B']⟩⟩
    0 ⟨some "a.pdf", ['1']⟩ ⟨some "a.pdf", ['2']⟩ [] false "a.pdf" rfl rfl (by decide)
    (by decide) (by decide) (by decide) (by decide) ['A'] ['B'] (by decide)
    (by decide)).2.2.2⟩

lemma stageFs_sink_get (f g : String) (payload : List Char) (fs : FS) :
    fsGet (stageFs f payload fs) (sinkPath g) = fsGet fs (sinkPath g) :=
  fsGet_put_ne fs (stagingPath f) (sinkPath g) payload (sinkPath_ne_staging g f)

lemma outFs_staging_get (env : Env) (f : String) (payload : List Char) (fs : FS) :
    fsGet (outFs env f payload fs) (stagingPath f) = fsGet fs (stagingPath f) := by
  unfold outFs
  cases ho : (env.decrypt payload).output with
  | none => rfl
  | some o => exact fsGet_put_ne fs (sinkPath f) (stagingPath f) o (staging_ne_sinkPath f f)

lemma cleanFs_staging_get (f : String) (fs : FS) (h : fsHas fs (stagingPath f) = true) :
    fsGet (cleanFs f fs) (stagingPath f) = none := by
  unfold cleanFs
  rw [if_pos h, fsGet_remove, if_pos rfl]

/-- C7 counterexample: the decryptor exits 0 but creates no output file.  The
code still deletes the staging file, counts the attachment done (`True`
returned, marker set) — yet no plaintext exists at the sink, refuting "the
implementation verifies that the sink output file exists before deleting the
staging file" (line 154 checks `encrypted.exists()`, the STAGING path). -/
theorem c7_counterexample :
    (process_mailbox ⟨['P'], fun _ => true, fun _ => ⟨true, none⟩⟩
      ⟨true, [⟨[], [⟨some "a.pdf", ['x']⟩]⟩]⟩ []).result = some true ∧
    fsGet (process_mailbox ⟨['P'], fun _ => true, fun _ => ⟨true, none⟩⟩
      ⟨true, [⟨[], [⟨some "a.pdf", ['x']⟩]⟩]⟩ []).fs (sinkPath "a.pdf") = none ∧
    fsGet (process_mailbox ⟨['P'], fun _ => true, fun _ => ⟨true, none⟩⟩
      ⟨true, [⟨[], [⟨some "a.pdf", ['x']⟩]⟩]⟩ []).fs (stagingPath "a.pdf") = none ∧
    containsSub ['P'] (getMsg (process_mailbox ⟨['P'], fun _ => true, fun _ => ⟨true, none⟩⟩
      ⟨true, [⟨[], [⟨some "a.pdf", ['x']⟩]⟩]⟩ []).msgs 0).labels = true := by decide

/-- C7 (amended): for an eligible, successfully staged attachment, on
decryptor exit-success the code deletes the staging file (after checking that
the STAGING file exists — not the sink output) and counts the attachment done
based solely on the exit status; the sink ends holding exactly what the
decryptor wrote, unverified.  On exit-failure the staging file is kept, the
attachment is not counted, and the code itself writes nothing to the sink
beyond what the decryptor left there. -/
theorem c7_completion_lifecycle (env : Env) (i : Nat) (a : Attachment) (fs : FS)
    (flag : Bool) (f : String) (hf : a.filename = some f) (he : eligiblePdf f = true)
    (hs : env.stageOk a.payload = true) :
    (attStep env i a fs flag).ok = true ∧
    ((env.decrypt a.payload).exitOk = true →
      (attStep env i a fs flag).flag = true ∧
      fsGet (attStep env i a fs flag).fs (stagingPath f) = none ∧
      (∀ o, (env.decrypt a.payload).output = some o →
        fsGet (attStep env i a fs flag).fs (sinkPath f) = some o) ∧
      ((env.decrypt a.payload).output = none →
        fsGet (attStep env i a fs flag).fs (sinkPath f) = fsGet fs (sinkPath f))) ∧
    ((env.decrypt a.payload).exitOk = false →
      (attStep env i a fs flag).flag = flag ∧
      fsGet (attStep env i a fs flag).fs (stagingPath f) = some a.payload ∧
      (∀ o, (env.decrypt a.payload).output = some o →
        fsGet (attStep env i a fs flag).fs (sinkPath f) = some o) ∧
      ((env.decrypt a.payload).output = none →
        fsGet (attStep env i a fs flag).fs (sinkPath f) = fsGet fs (sinkPath f))) := by
  have hstg : fsGet (stageFs f a.payload fs) (stagingPath f) = some a.payload := by
    unfold stageFs
    exact fsGet_put_self fs (stagingPath f) a.payload
  have hstg2 : fsGet (outFs env f a.payload (stageFs f a.payload fs)) (stagingPath f)
      = some a.payload := by
    rw [outFs_staging_get]
    exact hstg
  have hhas : fsHas (outFs env f a.payload (stageFs f a.payload fs)) (stagingPath f)
      = true := by
    unfold fsHas
    rw [hstg2]
    rfl
  have hsink : ∀ o, (env.decrypt a.payload).output = some o →
      fsGet (outFs env f a.payload (stageFs f a.payload fs)) (sinkPath f) = some o := by
    intro o ho
    unfold outFs
    rw [ho]
    exact fsGet_put_self _ (sinkPath f) o
  have hsink0 : (env.decrypt a.payload).output = none →
      fsGet (outFs env f a.payload (stageFs f a.payload fs)) (sinkPath f)
        = fsGet fs (sinkPath f) := by
    intro ho
    unfold outFs
    rw [ho]
    exact stageFs_sink_get f f a.payload fs
  by_cases hd : (env.decrypt a.payload).exitOk = true
  · rw [attStep_decSucc env i a fs flag f hf he hs hd]
    dsimp only
    refine ⟨rfl, fun _ => ⟨rfl, ?_, ?_, ?_⟩, fun hdf => absurd hd (by rw [hdf]; simp)⟩
    · exact cleanFs_staging_get f _ hhas
    · intro o ho
      rw [cleanFs_sink_get]
      exact hsink o ho
    · intro ho
      rw [cleanFs_sink_get]
      exact hsink0 ho
  · have hdf : (env.decrypt a.payload).exitOk = false := by
      revert hd
      cases (env.decrypt a.payload).exitOk <;> simp
    rw [attStep_decFail env i a fs flag f hf he hs hdf]
    dsimp only
    exact ⟨rfl, fun hdt => absurd hdt (by rw [hdf]; simp),
      fun _ => ⟨rfl, hstg2, hsink, hsink0⟩⟩

/-- Witness for `c7_completion_lifecycle` on a successful decrypt. -/
theorem c7_completion_lifecycle_witness :
    ((⟨some "e.pdf", ['p']⟩ : Attachment).filename = some "e.pdf") ∧
    eligiblePdf "e.pdf" = true ∧
    fsGet (attStep ⟨['P'], fun _ => true, fun _ => ⟨true, some ['w']⟩⟩ 0
      ⟨some "e.pdf", ['p']⟩ [] false).fs (stagingPath "e.pdf") = none :=
  ⟨rfl, by decide,
    ((c7_completion_lifecycle ⟨['P'], fun _ => true, fun _ => ⟨true, some ['w']⟩⟩ 0
      ⟨some "e.pdf", ['p']⟩ [] false "e.pdf" rfl (by decide) (by decide)).2.1
      (by decide)).2.1⟩

/-- C4 counterexample: a message whose first attachment decrypts successfully
and whose second attachment's staging write raises.  The run aborts before
`mail.store`, so the message ends UNMARKED even though one of its attachments
was successfully decrypted — refuting the "if" direction of marker-iff-
success as a property of every run. -/
theorem c4_counterexample :
    Ev.decOk 0 "a.pdf" ∈ (process_mailbox
      ⟨['P'], fun p => decide (p = ['x']), fun _ => ⟨true, some ['z']⟩⟩
      ⟨true, [⟨[], [⟨some "a.pdf", ['x']⟩, ⟨some "b.pdf", ['y']⟩]⟩]⟩ []).evs ∧
    (process_mailbox
      ⟨['P'], fun p => decide (p = ['x']), fun _ => ⟨true, some ['z']⟩⟩
      ⟨true, [⟨[], [⟨some "a.pdf", ['x']⟩, ⟨some "b.pdf", ['y']⟩]⟩]⟩ []).result = none ∧
    containsSub ['P'] (getMsg (process_mailbox
      ⟨['P'], fun p => decide (p = ['x']), fun _ => ⟨true, some ['z']⟩⟩
      ⟨true, [⟨[], [⟨some "a.pdf", ['x']⟩, ⟨some "b.pdf", ['y']⟩]⟩]⟩ []).msgs 0).labels
      = false := by decide

/-- C4 (amended): in a run of `process_mailbox` that returns normally, an
initially-unmarked candidate message ends with the ProcessedMarker if and only
if at least one of its eligible attachments decrypted successfully (exit 0);
in particular a message whose eligible attachments all failed stays unmarked
and remains eligible for a future run.  (When a staging-write exception aborts
the run, a message can end unmarked despite a success — see the
counterexample.) -/
theorem c4_marker_iff_success (env : Env) (mb : Mailbox) (fs : FS) (b : Bool) (i : Nat)
    (hso : mb.searchOk = true)
    (hres : (process_mailbox env mb fs).result = some b)
    (hi : i < mb.msgs.length)
    (hunm : ¬ markedP env (getMsg mb.msgs i)) :
    markedP env (getMsg (process_mailbox env mb fs).msgs i) ↔
      ∃ a ∈ (getMsg mb.msgs i).attachments, attSucc env a := by
  have hlen : mb.msgs.length ≠ 0 := by omega
  rw [process_mailbox_run env mb fs hso hlen] at hres ⊢
  have hnd : ((List.range mb.msgs.length).reverse).Nodup :=
    List.nodup_reverse.mpr (List.nodup_range _)
  have hbd : ∀ j ∈ (List.range mb.msgs.length).reverse, j < mb.msgs.length := by
    intro j hj
    rw [List.mem_reverse, List.mem_range] at hj
    exact hj
  obtain ⟨-, -, -, P4⟩ :=
    runMsgs_post env (List.range mb.msgs.length).reverse mb.msgs fs false b hnd hbd hres
  have hmem : i ∈ (List.range mb.msgs.length).reverse := by
    rw [List.mem_reverse, List.mem_range]
    exact hi
  rcases P4 i hmem with ⟨hmk, -⟩ | ⟨-, heq, hsucc⟩ | ⟨-, heq, hfails, -⟩
  · exact absurd hmk hunm
  · rw [heq]
    exact iff_of_true (containsSub_addMarker env.processedLabel (getMsg mb.msgs i)) hsucc
  · rw [heq]
    refine iff_of_false hunm ?_
    rintro ⟨a, ha, g, hgf, hge, hgd⟩
    have := (hfails a ha g hgf hge).2
    rw [hgd] at this
    exact Bool.noConfusion this

/-- Witness for `c4_marker_iff_success`: one message, one decryptable PDF;
the run returns normally and the message ends marked. -/
theorem c4_marker_iff_success_witness :
    (process_mailbox ⟨['P'], fun _ => true, fun _ => ⟨true, some ['w']⟩⟩
      ⟨true, [⟨[], [⟨some "d.pdf", ['q']⟩]⟩]⟩ []).result = some true ∧
    ¬ markedP ⟨['P'], fun _ => true, fun _ => ⟨true, some ['w']⟩⟩
      (getMsg [(⟨[], [⟨some "d.pdf", ['q']⟩]⟩ : Message)] 0) ∧
    markedP ⟨['P'], fun _ => true, fun _ => ⟨true, some ['w']⟩⟩
      (getMsg (process_mailbox ⟨['P'], fun _ => true, fun _ => ⟨true, some ['w']⟩⟩
        ⟨true, [⟨[], [⟨some "d.pdf", ['q']⟩]⟩]⟩ []).msgs 0) :=
  ⟨by decide, by decide,
    (c4_marker_iff_success ⟨['P'], fun _ => true, fun _ => ⟨true, some ['w']⟩⟩
      ⟨true, [⟨[], [⟨some "d.pdf", ['q']⟩]⟩]⟩ [] true 0 rfl (by decide) (by norm_num)
      (by decide)).mpr
      ⟨⟨some "d.pdf", ['q']⟩, by decide, "d.pdf", rfl, by decide, by decide⟩⟩

/-- C3 counterexample: a message whose first eligible attachment's staging
write raises and whose second attachment is perfectly healthy.  The run
aborts: the sibling attachment is never attempted, the session is not logged
out, and the whole `process_mailbox` call ends in the escaped-exception
outcome — refuting "it is logged, only that attachment is skipped, the run
continues with sibling attachments and later messages". -/
theorem c3_counterexample :
    (process_mailbox ⟨['P'], fun p => decide (p = ['u']), fun _ => ⟨true, some ['z']⟩⟩
      ⟨true, [⟨[], [⟨some "x.pdf", ['t']⟩, ⟨some "y.pdf", ['u']⟩]⟩]⟩ []).result = none ∧
    Ev.attempt 0 "y.pdf" ∉ (process_mailbox
      ⟨['P'], fun p => decide (p = ['u']), fun _ => ⟨true, some ['z']⟩⟩
      ⟨true, [⟨[], [⟨some "x.pdf", ['t']⟩, ⟨some "y.pdf", ['u']⟩]⟩]⟩ []).evs ∧
    Ev.logout ∉ (process_mailbox
      ⟨['P'], fun p => decide (p = ['u']), fun _ => ⟨true, some ['z']⟩⟩
      ⟨true, [⟨[], [⟨some "x.pdf", ['t']⟩, ⟨some "y.pdf", ['u']⟩]⟩]⟩ []).evs := by decide

/-- C3 (amended): a staging-write failure is NOT handled like a decrypt
failure.  The exception escapes `process_mailbox`: the run ends at the
staging failure (it is the last event), no logout happens, and no message
processed after the failing one is touched.  Only the main loop's
`try/except` contains the exception, so the process itself keeps running and
the iteration behaves like a found-nothing outcome. -/
theorem c3_staging_failure_aborts (env : Env) (mb : Mailbox) (fs : FS) (i : Nat)
    (f : String) (a : Attachment) (pre post : List Attachment)
    (hso : mb.searchOk = true) (hi : i < mb.msgs.length)
    (hunm : ¬ markedP env (getMsg mb.msgs i))
    (hatts : (getMsg mb.msgs i).attachments = pre ++ a :: post)
    (ha : a.filename = some f) (he : eligiblePdf f = true)
    (hs : env.stageOk a.payload = false)
    (hpre : ∀ b ∈ pre, attStages env b)
    (hlater : ∀ j, i < j → j < mb.msgs.length → msgStages env (getMsg mb.msgs j)) :
    (process_mailbox env mb fs).result = none ∧
    (∃ l, (process_mailbox env mb fs).evs = l ++ [Ev.stageFail i f]) ∧
    Ev.logout ∉ (process_mailbox env mb fs).evs ∧
    (∀ k, k < i → ∀ e ∈ (process_mailbox env mb fs).evs, touches e k = false) ∧
    loopIter env mb fs = false := by
  have hlen : mb.msgs.length ≠ 0 := by omega
  have hmem1 : ∀ j, j ∈ (List.range' (i + 1) (mb.msgs.length - i - 1)).reverse →
      i + 1 ≤ j ∧ j < mb.msgs.length := by
    intro j hj
    rw [List.mem_reverse, List.mem_range'_1] at hj
    omega
  have hne : ∀ j ∈ (List.range' (i + 1) (mb.msgs.length - i - 1)).reverse, j ≠ i := by
    intro j hj
    have := hmem1 j hj
    omega
  have hst : ∀ j ∈ (List.range' (i + 1) (mb.msgs.length - i - 1)).reverse,
      msgStages env (getMsg mb.msgs j) := by
    intro j hj
    obtain ⟨h1, h2⟩ := hmem1 j hj
    exact hlater j (by omega) h2
  have habort := runMsgs_abort env i f a pre post ha he hs
    (List.range' (i + 1) (mb.msgs.length - i - 1)).reverse (List.range i).reverse
    mb.msgs fs false hne hst hunm hatts hpre
  have hsplit := range_rev_split mb.msgs.length i hi
  have hrun : process_mailbox env mb fs =
      runMsgs env ((List.range' (i + 1) (mb.msgs.length - i - 1)).reverse ++
        i :: (List.range i).reverse) mb.msgs fs false := by
    rw [process_mailbox_run env mb fs hso hlen, hsplit]
  obtain ⟨A1, A2, A3, A4⟩ := habort
  rw [hrun]
  refine ⟨A1, A2, A3, ?_, ?_⟩
  · intro k hk e he2
    refine A4 k ?_ (by omega) e he2
    intro hkmem
    have := hmem1 k hkmem
    omega
  · unfold loopIter
    rw [hrun, A1]
    rfl

/-- Witness for `c3_staging_failure_aborts`: the newest message's only
attachment fails to stage; the run ends in the escaped-exception outcome. -/
theorem c3_staging_failure_aborts_witness :
    ((⟨true, [⟨[], [⟨some "g.pdf", ['c']⟩]⟩,
        ⟨[], [⟨some "x.pdf", ['t']⟩]⟩]⟩ : Mailbox).searchOk = true) ∧
    (process_mailbox ⟨['P'], fun _ => false, fun _ => ⟨true, some ['z']⟩⟩
      ⟨true, [⟨[], [⟨some "g.pdf", ['c']⟩]⟩, ⟨[], [⟨some "x.pdf", ['t']⟩]⟩]⟩ []).result
      = none :=
  ⟨rfl, (c3_staging_failure_aborts ⟨['P'], fun _ => false, fun _ => ⟨true, some ['z']⟩⟩
    ⟨true, [⟨[], [⟨some "g.pdf", ['c']⟩]⟩, ⟨[], [⟨some "x.pdf", ['t']⟩]⟩]⟩ [] 1
    "x.pdf" ⟨some "x.pdf", ['t']⟩ [] [] rfl (by norm_num) (by decide) rfl rfl
    (by decide) rfl (by intro b hb; exact absurd hb (List.not_mem_nil b))
    (by intro j h1 h2; simp at h2; omega)).1⟩

/-- C2: failure isolation.  In a run where every staging write succeeds (the
decrypt-failure regime the claim is about), an unmarked message `i` holding a
failing attachment `A` and a succeeding attachment `B` still gets `B`
attempted and completed — the decryptor success is recorded, `B`'s output is
written at its sink path, and the message ends marked processed — and every
eligible attachment of every later unmarked candidate message is still
attempted in the same run, which returns normally. -/
theorem c2_failure_isolation (env : Env) (mb : Mailbox) (fs : FS) (i : Nat)
    (hso : mb.searchOk = true) (hi : i < mb.msgs.length)
    (hunm : ¬ markedP env (getMsg mb.msgs i))
    (hstall : ∀ j, j < mb.msgs.length → msgStages env (getMsg mb.msgs j))
    (A B : Attachment) (fA fB : String)
    (hA : A ∈ (getMsg mb.msgs i).attachments) (haf : A.filename = some fA)
    (hae : eligiblePdf fA = true) (_had : (env.decrypt A.payload).exitOk = false)
    (hB : B ∈ (getMsg mb.msgs i).attachments) (hbf : B.filename = some fB)
    (hbe : eligiblePdf fB = true) (hbd : (env.decrypt B.payload).exitOk = true)
    (oB : List Char) (hbo : (env.decrypt B.payload).output = some oB) :
    (process_mailbox env mb fs).result.isSome = true ∧
    Ev.attempt i fA ∈ (process_mailbox env mb fs).evs ∧
    Ev.decOk i fB ∈ (process_mailbox env mb fs).evs ∧
    Ev.sunk i fB ∈ (process_mailbox env mb fs).evs ∧
    fsHas (process_mailbox env mb fs).fs (sinkPath fB) = true ∧
    markedP env (getMsg (process_mailbox env mb fs).msgs i) ∧
    (∀ j, j < i → ¬ markedP env (getMsg mb.msgs j) →
      ∀ a ∈ (getMsg mb.msgs j).attachments, ∀ f, a.filename = some f →
        eligiblePdf f = true → Ev.attempt j f ∈ (process_mailbox env mb fs).evs) := by
  have hlen : mb.msgs.length ≠ 0 := by omega
  rw [process_mailbox_run env mb fs hso hlen]
  have hnd : ((List.range mb.msgs.length).reverse).Nodup :=
    List.nodup_reverse.mpr (List.nodup_range _)
  have hbd' : ∀ j ∈ (List.range mb.msgs.length).reverse, j < mb.msgs.length := by
    intro j hj
    rw [List.mem_reverse, List.mem_range] at hj
    exact hj
  have hmem : i ∈ (List.range mb.msgs.length).reverse := by
    rw [List.mem_reverse, List.mem_range]
    exact hi
  obtain ⟨C1, C2⟩ := runMsgs_cov env (List.range mb.msgs.length).reverse mb.msgs fs
    false hnd (fun j hj => hstall j (hbd' j hj))
  obtain ⟨cA1, -, -⟩ := C2 i hmem hunm A hA fA haf hae
  obtain ⟨-, cB2, cB3⟩ := C2 i hmem hunm B hB fB hbf hbe
  obtain ⟨res, hres⟩ := Option.isSome_iff_exists.mp C1
  obtain ⟨-, -, -, P4⟩ := runMsgs_post env (List.range mb.msgs.length).reverse mb.msgs
    fs false res hnd hbd' hres
  have hmarked : markedP env
      (getMsg (runMsgs env (List.range mb.msgs.length).reverse mb.msgs fs false).msgs i)
      := by
    rcases P4 i hmem with ⟨hmk, -⟩ | ⟨-, heq, -⟩ | ⟨-, -, hfails, -⟩
    · exact absurd hmk hunm
    · rw [heq]
      exact containsSub_addMarker env.processedLabel (getMsg mb.msgs i)
    · have := (hfails B hB fB hbf hbe).2
      rw [hbd] at this
      exact absurd this (by simp)
  refine ⟨C1, cA1, cB2 hbd, (cB3 oB hbo).1, (cB3 oB hbo).2, hmarked, ?_⟩
  intro j hj hjunm a ha f hf he
  have hjmem : j ∈ (List.range mb.msgs.length).reverse := by
    rw [List.mem_reverse, List.mem_range]
    omega
  exact (C2 j hjmem hjunm a ha f hf he).1

/-- Witness for `c2_failure_isolation`: the newest message (index 1) has a
failing and a succeeding attachment; an older unmarked message (index 0) has
one more eligible attachment. -/
theorem c2_failure_isolation_witness :
    ¬ markedP ⟨['P'], fun _ => true,
        fun p => if p = ['a'] then ⟨false, none⟩ else ⟨true, some ['z']⟩⟩
      (getMsg [⟨[], [⟨some "g.pdf", ['c']⟩]⟩,
        ⟨[], [⟨some "f1.pdf", ['a']⟩, ⟨some "f2.pdf", ['b']⟩]⟩] 1) ∧
    Ev.decOk 1 "f2.pdf" ∈ (process_mailbox
      ⟨['P'], fun _ => true,
        fun p => if p = ['a'] then ⟨false, none⟩ else ⟨true, some ['z']⟩⟩
      ⟨true, [⟨[], [⟨some "g.pdf", ['c']⟩]⟩,
        ⟨[], [⟨some "f1.pdf", ['a']⟩, ⟨some "f2.pdf", ['b']⟩]⟩]⟩ []).evs :=
  ⟨by decide,
    (c2_failure_isolation
      ⟨['P'], fun _ => true,
        fun p => if p = ['a'] then ⟨false, none⟩ else ⟨true, some ['z']⟩⟩
      ⟨true, [⟨[], [⟨some "g.pdf", ['c']⟩]⟩,
        ⟨[], [⟨some "f1.pdf", ['a']⟩, ⟨some "f2.pdf", ['b']⟩]⟩]⟩ [] 1 rfl
      (by norm_num) (by decide)
      (by intro j hj
          unfold msgStages attStages
          intro a ha g hg hge
          rfl)
      ⟨some "f1.pdf", ['a']⟩ ⟨some "f2.pdf", ['b']⟩ "f1.pdf" "f2.pdf"
      (by decide) rfl (by decide) (by decide)
      (by decide) rfl (by decide) (by decide) ['z'] (by decide)).2.2.1⟩
